import Mathlib

/-!
Verification of the AI-resume-extracter pipeline.

This file gives a shallow embedding of the two source modules that carry the
program logic (`extract.py` and `jobmatcher.py`) and proves / refutes the
frozen behavioural claims about them.

Modelling conventions:
* Python strings are Lean `String`s (lists of Unicode code points).
* Python sets of strings are `Finset String`.
* Python floats are modelled as `ℚ`; `round(x, 2)` is modelled as rounding
  `x * 100` to the nearest integer (Python uses binary-float ties-to-even;
  no theorem below depends on tie behaviour).
* The external components (spaCy, rapidfuzz's `process.extractOne`, the
  pdfplumber / python-docx readers) are black boxes per the spec, passed
  in as explicit function parameters.
-/

/-! ### Character classes (extract.py, module level) -/

/-- The whitespace characters matched by Python's `\s` regex class and
stripped by `str.strip()` on `str` inputs (CPython 3.x). -/
def pySpaceChars : List Char :=
  [' ', '\t', '\n', '\r', '\x0b', '\x0c',
   '\x1c', '\x1d', '\x1e', '\x1f', '\x85', '\xa0',
   '\u1680', '\u2000', '\u2001', '\u2002', '\u2003', '\u2004', '\u2005',
   '\u2006', '\u2007', '\u2008', '\u2009', '\u200a',
   '\u2028', '\u2029', '\u202f', '\u205f', '\u3000']

/-- Whether a character counts as Python whitespace. -/
def isPySpace (c : Char) : Bool := pySpaceChars.contains c

/-- `BULLETS` from extract.py (the source list repeats the first glyph;
a duplicate entry does not change sequential `str.replace`). -/
def bulletChars : List Char := ['•', '◦', '·', '●', '–', '—', '▪', '‣']

/-- Whether a character is one of the recognized bullet glyphs. -/
def isBullet (c : Char) : Bool := bulletChars.contains c

/-- The character class kept by `_ALLOWED_CHARS = r"[^a-z0-9@\.\+\-#/_&\s\n]"`:
lowercase ASCII letters, ASCII digits, the listed tech punctuation, and `\s`
whitespace (`\n` is already inside `\s`). -/
def isAllowedChar (c : Char) : Bool :=
  ('a' ≤ c && c ≤ 'z') || ('0' ≤ c && c ≤ '9') ||
  ['@', '.', '+', '-', '#', '/', '_', '&'].contains c || isPySpace c

/-- Space or tab: the class of `re.sub(r"[ \t]{2,}", " ", ...)`. -/
def isST (c : Char) : Bool := c = ' ' || c = '\t'

/-- Python `str.lower()`, character-wise (`Char.toLower` covers the basic
Latin letters; Python's extra Unicode case mappings only concern characters
that the pipeline's allowed-character filter discards anyway). -/
def strToLower (s : String) : String := ⟨s.data.map Char.toLower⟩

/-! ### Python-style strip -/

/-- `str.lstrip()` on a character list. -/
def lstripWs (l : List Char) : List Char := l.dropWhile isPySpace

/-- `str.rstrip()` on a character list. -/
def rstripWs (l : List Char) : List Char := (l.reverse.dropWhile isPySpace).reverse

/-- `str.strip()` on a character list. -/
def stripWs (l : List Char) : List Char := lstripWs (rstripWs l)

/-- `str.strip()` on a `String` (Python strips Unicode whitespace; Lean's
built-in `String.trim` only strips ASCII whitespace, so we roll our own). -/
def pyStrip (s : String) : String := ⟨stripWs s.data⟩

/-! ### clean_text (extract.py lines 41-49) -/

/-- Step `text.replace("\r", "\n")` of `clean_text`, character-wise. -/
def crToNl (c : Char) : Char := if c = '\r' then '\n' else c

/-- One character of `normalize_bullets`: every bullet glyph becomes the
three characters `"\n- "`; other characters are unchanged.  Sequential
`str.replace` over the bullet list equals this single pass because every
bullet is one character and the replacement contains no bullet. -/
def bulletSub (c : Char) : List Char :=
  if isBullet c then ['\n', '-', ' '] else [c]

/-- `normalize_bullets` from extract.py (lines 18-21). -/
def normalize_bullets (s : String) : String := ⟨s.data.flatMap bulletSub⟩

/-- One character of `re.sub(_ALLOWED_CHARS, " ", text)`: each disallowed
character becomes a single space. -/
def keepAllowed (c : Char) : Char := if isAllowedChar c then c else ' '

/-- `re.sub(r"[ \t]{2,}", " ", ...)`: every maximal run of two or more
spaces/tabs collapses to one space; an isolated space or tab is kept as is.
The regex engine scans left to right taking maximal runs, which is exactly
this recursion. -/
def collapseST : List Char → List Char
  | [] => []
  | c :: rest =>
    if isST c then
      if (rest.takeWhile isST).length = 0 then c :: collapseST rest
      else ' ' :: collapseST (rest.dropWhile isST)
    else c :: collapseST rest
termination_by l => l.length
decreasing_by
  · simp only [List.length_cons]; omega
  · simp only [List.length_cons]
    have := (List.dropWhile_sublist (l := rest) isST).length_le
    omega
  · simp only [List.length_cons]; omega

/-- `re.sub(r"\n{3,}", "\n\n", ...)`: every maximal run of three or more
newlines collapses to exactly two; runs of one or two newlines are kept. -/
def collapseNL : List Char → List Char
  | [] => []
  | c :: rest =>
    if c = '\n' then
      (if 2 ≤ (rest.takeWhile (· = '\n')).length then ['\n', '\n']
       else c :: rest.takeWhile (· = '\n')) ++
        collapseNL (rest.dropWhile (· = '\n'))
    else c :: collapseNL rest
termination_by l => l.length
decreasing_by
  · simp only [List.length_cons]
    have := (List.dropWhile_sublist (l := rest) (· = '\n')).length_le
    omega
  · simp only [List.length_cons]; omega

/-- The character-list body of `clean_text` (extract.py lines 41-49), steps
in source order: CR normalization, bullet normalization, lowercasing,
disallowed-character replacement, space/tab collapsing, blank-line limiting,
and final strip. -/
def cleanChars (l : List Char) : List Char :=
  stripWs (collapseNL (collapseST
    ((((l.map crToNl).flatMap bulletSub).map Char.toLower).map keepAllowed)))

/-- `clean_text` from extract.py. -/
def clean_text (s : String) : String := ⟨cleanChars s.data⟩

/-! ### Line handling and header/footer de-duplication (extract.py lines 23-39) -/

/-- Accumulating splitter behind `splitlines`: cut at every newline, with
no empty piece after a final newline. -/
def splitlinesAux (acc : List Char) : List Char → List (List Char)
  | [] => [acc.reverse]
  | c :: rest =>
    if c = '\n' then
      acc.reverse :: (if rest.isEmpty then [] else splitlinesAux [] rest)
    else splitlinesAux (c :: acc) rest

/-- Python `str.splitlines()` restricted to `"\n"` separators (the only
separator produced when page texts are joined with `"\n"`): split on
newlines, with no trailing empty piece when the string ends in a newline,
and `[]` for the empty string. -/
def splitlines (s : String) : List String :=
  if s.data.isEmpty then []
  else (splitlinesAux [] s.data).map (fun cs => ⟨cs⟩)

/-- `de_duplicate_headers_footers` from extract.py: build the frequency
table of stripped non-empty lines, take
`threshold = max(2, int(0.4 * max(freq.values())))`, and keep the lines
whose stripped form occurs strictly fewer times than the threshold.
`int(0.4 * m)` on CPython floats equals `⌊2m/5⌋` for every count `m`
(the float product never rounds across an integer boundary), modelled as
natural division `2 * m / 5`. -/
def de_duplicate_headers_footers (lines : List String) : List String :=
  let keys := (lines.map pyStrip).filter (fun k => k ≠ "")
  if keys = [] then lines
  else
    let maxFreq := (keys.map (fun k => keys.count k)).foldr max 0
    let threshold := max 2 (2 * maxFreq / 5)
    lines.filter (fun ln => keys.count (pyStrip ln) < threshold)

/-- `extract_text_from_pdf` from extract.py, starting from the per-page
texts delivered by pdfplumber (`_page_text_safe` on each page, an external
reader): drop empty page texts, join with newlines, then run the
header/footer de-duplication over the whole document's lines. -/
def extract_text_from_pdf (pages : List String) : String :=
  let texts := pages.filter (fun t => t ≠ "")
  let out := String.intercalate "\n" texts
  String.intercalate "\n" (de_duplicate_headers_footers (splitlines out))

/-- A python-docx `Document` as consumed by `extract_text_from_docx`:
paragraph texts, and tables as rows of cell texts. -/
structure DocxDoc where
  paragraphs : List String
  tables : List (List (List String))

/-- `extract_text_from_docx` from extract.py: all paragraph texts in order,
then every table row (cells joined by two spaces) whose stripped text is
non-empty, joined with newlines. -/
def extract_text_from_docx (doc : DocxDoc) : String :=
  let rows := doc.tables.flatMap (fun table =>
    (table.map (fun row => String.intercalate "  " row)).filter
      (fun rt => pyStrip rt ≠ ""))
  String.intercalate "\n" (doc.paragraphs ++ rows)

/-! ### Path handling and the extraction entry point (extract.py 106-125) -/

/-- Index of the last occurrence of `c` in `cs`, if any. -/
def lastIdxOf (cs : List Char) (c : Char) : Option ℕ :=
  match cs.reverse.findIdx? (· = c) with
  | none => none
  | some i => some (cs.length - 1 - i)

/-- `os.path.splitext` (POSIX): split at the last dot, provided it lies in
the basename and the basename has a non-dot character before it (leading
dots do not start an extension). -/
def splitext (p : String) : String × String :=
  let cs := p.data
  match lastIdxOf cs '.' with
  | none => (p, "")
  | some d =>
    let filenameIndex : ℕ :=
      match lastIdxOf cs '/' with
      | none => 0
      | some s => s + 1
    if filenameIndex ≤ d then
      if ((cs.drop filenameIndex).take (d - filenameIndex)).any (· ≠ '.') then
        (⟨cs.take d⟩, ⟨cs.drop d⟩)
      else (p, "")
    else (p, "")

/-- The error values raised by `extract_resume_text`:
`FileNotFoundError` and `ValueError`, each carrying its message. -/
inductive ExtractErr where
  | fileNotFound (msg : String)
  | valueError (msg : String)
deriving DecidableEq

deriving instance DecidableEq for Except

/-- `extract_resume_text` from extract.py.  The filesystem probe
`os.path.isfile` and the two format readers (pdfplumber page extraction,
python-docx loading) are external effects, passed as functions. -/
def extract_resume_text (isfile : String → Bool)
    (pdfPages : String → List String) (docxDoc : String → DocxDoc)
    (file_path : String) (clean : Bool) :
    Except ExtractErr (String × String) :=
  if isfile file_path = false then
    .error (.fileNotFound ("File not found: " ++ file_path))
  else
    let ext := strToLower (splitext file_path).2
    if ext = ".pdf" then
      let raw := extract_text_from_pdf (pdfPages file_path)
      .ok (raw, if clean then clean_text raw else raw)
    else if ext = ".docx" then
      let raw := extract_text_from_docx (docxDoc file_path)
      .ok (raw, if clean then clean_text raw else raw)
    else
      .error (.valueError "Unsupported format. Use PDF or DOCX.")

/-! ### Keyword extraction (jobmatcher.py lines 16-55) -/

/-- First character of `TECH_TOKEN_RE = [a-zA-Z0-9][a-zA-Z0-9+\-#/_\.&]*`. -/
def isTechStart (c : Char) : Bool := c.isAlphanum

/-- Continuation characters of `TECH_TOKEN_RE`. -/
def isTechCont (c : Char) : Bool :=
  c.isAlphanum || ['+', '-', '#', '/', '_', '.', '&'].contains c

/-- `re.findall(TECH_TOKEN_RE, text)`: the regex scanner finds
non-overlapping leftmost-longest matches, i.e. maximal runs of continuation
characters opened by a start character. -/
def techScan : List Char → List (List Char)
  | [] => []
  | c :: rest =>
    if isTechStart c then
      (c :: rest.takeWhile isTechCont) :: techScan (rest.dropWhile isTechCont)
    else techScan rest
termination_by l => l.length
decreasing_by
  · simp only [List.length_cons]
    have := (List.dropWhile_sublist (l := rest) isTechCont).length_le
    omega
  · simp only [List.length_cons]; omega

/-- The characters removed from both token ends by the `.strip` call in
`_tech_tokens`: space, dot, underscore, dash, slash, backslash. -/
def techStripChars : List Char := [' ', '.', '_', '-', '/', '\\']

/-- Python `str.strip(chars)`: drop characters from `bad` off both ends. -/
def stripEnds (bad : List Char) (l : List Char) : List Char :=
  ((l.dropWhile bad.contains).reverse.dropWhile bad.contains).reverse

/-- `_tech_tokens` from jobmatcher.py: regex matches, lowercased and
stripped of the separator characters at both ends, keeping those of
length above one. -/
def tech_tokens (text : String) : Finset String :=
  let toks := (techScan text.data).map
    (fun t => (⟨stripEnds techStripChars (t.map Char.toLower)⟩ : String))
  (toks.filter (fun t => 1 < t.length)).toFinset

/-- One spaCy token as consumed by `extract_keywords`: its lemma,
coarse part-of-speech tag, and the stopword/punctuation/number flags.
spaCy itself is an external component. -/
structure SpacyTok where
  lemma_ : String
  pos_ : String
  is_stop : Bool
  is_punct : Bool
  like_num : Bool

/-- The fixed denylist `noise` of jobmatcher.py line 54. -/
def noiseWords : Finset String :=
  {"experience", "work", "year", "years", "role", "responsibility", "project"}

/-- `extract_keywords` from jobmatcher.py.  The argument `nlp` models the
spaCy pipeline: it returns the document's token sequence and its noun
chunks (as token sequences). -/
def extract_keywords (nlp : String → List SpacyTok × List (List SpacyTok))
    (text : String) : Finset String :=
  let doc := nlp text
  let lemmas : List String := doc.1.filterMap (fun tok =>
    if tok.is_stop || tok.is_punct || tok.like_num then none
    else if ["NOUN", "PROPN", "ADJ", "VERB"].contains tok.pos_ then
      let lem := pyStrip (strToLower tok.lemma_)
      if 1 < lem.length then some lem else none
    else none)
  let phrases : List String := doc.2.filterMap (fun chunk =>
    let words := (chunk.filter (fun t => !(t.is_stop || t.is_punct))).map
      (fun t => strToLower t.lemma_)
    let phrase := String.intercalate " " (words.filter (fun w => 1 < w.length))
    if 1 ≤ phrase.data.count ' ' then some phrase else none)
  let out := lemmas.toFinset ∪ phrases.toFinset ∪ tech_tokens text
  out.filter (fun t => t ∉ noiseWords)

/-! ### Matching and scoring (jobmatcher.py lines 57-111) -/

/-- The ambient fuzzy-matching configuration: `HAVE_FUZZ` (whether
rapidfuzz imported), the external `process.extractOne` matcher with its
`token_set_ratio` scorer (black box, similarity on a 0-100 scale), and the
cutoff (source default 88). -/
structure FuzzCfg where
  haveFuzz : Bool
  extractOne : String → List String → Option (String × ℚ)
  cutoff : ℚ

/-- `_fuzzy_matched` from jobmatcher.py: with rapidfuzz present and both
sets non-empty, the JD terms whose best resume match scores at least the
cutoff.  Python's set iteration order for `list(resume_terms)` is modelled
as sorted order (the oracle receives the candidate list). -/
def fuzzy_matched (cfg : FuzzCfg) (jd_terms resume_terms : Finset String) :
    Finset String :=
  if cfg.haveFuzz = false ∨ jd_terms = ∅ ∨ resume_terms = ∅ then ∅
  else
    let res_list := resume_terms.sort (· ≤ ·)
    jd_terms.filter (fun t =>
      (match cfg.extractOne t res_list with
       | some hit => decide (cfg.cutoff ≤ hit.2)
       | none => false) = true)

/-- The result record of `calculate_match`. -/
structure MatchResult where
  common : Finset String
  fuzzy_common : Finset String
  missing : Finset String
  score : ℚ
deriving DecidableEq

/-- Python `round(x, 2)`: round `100 x` to the nearest integer, divide by
100 (tie behaviour abstracted; see the module docstring). -/
def round2 (q : ℚ) : ℚ := (round (q * 100) : ℤ) / 100

/-- `calculate_match` from jobmatcher.py lines 69-100.  The local
`missing = jd_keywords - resume_keywords` of line 82 is dead in the source
(the returned field is recomputed on line 98) and is omitted. -/
def calculate_match (cfg : FuzzCfg) (resume_keywords jd_keywords : Finset String) :
    MatchResult :=
  if jd_keywords = ∅ then ⟨∅, ∅, ∅, 0⟩
  else
    let exact_common := resume_keywords ∩ jd_keywords
    let fuzzy_common := fuzzy_matched cfg jd_keywords resume_keywords \ exact_common
    let jaccard : ℚ := (exact_common.card : ℚ) / (jd_keywords.card : ℚ)
    let fuzzy_denom : ℕ := max 1 jd_keywords.card
    let fuzzy_frac : ℚ := (fuzzy_common.card : ℚ) / (fuzzy_denom : ℚ)
    let score : ℚ := 100 * ((0.7 : ℚ) * jaccard + (0.3 : ℚ) * min 1 fuzzy_frac)
    { common := exact_common
      fuzzy_common := fuzzy_common
      missing := jd_keywords \ (resume_keywords ∪ fuzzy_common)
      score := round2 score }

/-- `match_resume_to_job` from jobmatcher.py: the back-compat 3-tuple. -/
def match_resume_to_job (nlp : String → List SpacyTok × List (List SpacyTok))
    (cfg : FuzzCfg) (resume_text jd_text : String) :
    Finset String × Finset String × ℚ :=
  let res := calculate_match cfg (extract_keywords nlp resume_text)
    (extract_keywords nlp jd_text)
  (res.common, res.missing, res.score)

/-- A degraded-mode configuration: rapidfuzz absent (`HAVE_FUZZ = False`). -/
def cfgNoFuzz : FuzzCfg := ⟨false, fun _ _ => none, 88⟩

/-! ### Concrete fuzzy oracle and string-containment helpers

Definitions used by concrete test instances of the theorems below. -/

/-- Split a string at every occurrence of a separator character
(structural helper for `tokenSubset`). -/
def splitOnCharAux (sep : Char) (acc : List Char) : List Char → List String
  | [] => [⟨acc.reverse⟩]
  | c :: rest =>
    if c = sep then (⟨acc.reverse⟩ : String) :: splitOnCharAux sep [] rest
    else splitOnCharAux sep (c :: acc) rest

/-- Split a string at every occurrence of a separator character. -/
def splitOnChar (sep : Char) (s : String) : List String :=
  splitOnCharAux sep [] s.data

/-- Whether every space-separated token of `a` occurs among the tokens of
`b`. -/
def tokenSubset (a b : String) : Bool :=
  (splitOnChar ' ' a).all (fun w => (splitOnChar ' ' b).contains w)

/-- A concrete instance of rapidfuzz's `process.extractOne` with the
`token_set_ratio` scorer, restricted to the one guarantee this development
relies on: when the token set of one side is contained in the other's,
`token_set_ratio` returns exactly 100 (the sorted token intersection then
equals one of the two compared strings).  The oracle reports the first such
candidate with score 100 and reports no match otherwise. -/
def subsetOracle (q : String) (cands : List String) : Option (String × ℚ) :=
  match cands.find? (fun c => tokenSubset c q || tokenSubset q c) with
  | some c => some (c, 100)
  | none => none

/-- A configuration with rapidfuzz present, scored by `subsetOracle`. -/
def cfgSubsetFuzz : FuzzCfg := ⟨true, subsetOracle, 88⟩

/-- Boolean list-prefix test (structural helper for `hasSubstrB`). -/
def isPrefixB : List Char → List Char → Bool
  | [], _ => true
  | _ :: _, [] => false
  | a :: as, b :: bs => a = b && isPrefixB as bs

/-- Whether `needle` occurs as a contiguous substring of the second list. -/
def hasSubstrB (needle : List Char) : List Char → Bool
  | [] => needle.isEmpty
  | c :: rest => isPrefixB needle (c :: rest) || hasSubstrB needle rest

/-- Whether the list contains two adjacent space/tab characters
(the pattern collapsed by `collapseST`). -/
def hasST2 : List Char → Bool
  | a :: b :: rest => (isST a && isST b) || hasST2 (b :: rest)
  | _ => false

/-- Whether the list contains three consecutive newline characters
(the pattern collapsed by `collapseNL`). -/
def hasNl3 : List Char → Bool
  | a :: b :: c :: rest => (a = '\n' && b = '\n' && c = '\n') || hasNl3 (b :: c :: rest)
  | _ => false

/-! ### Helper lemmas about the matcher -/

/-- `fuzzy_matched` only ever returns job-description terms (the source
iterates over `jd_terms` and adds the JD term itself). -/
theorem fuzzy_matched_subset (cfg : FuzzCfg) (J R : Finset String) :
    fuzzy_matched cfg J R ⊆ J := by
  unfold fuzzy_matched
  split
  · exact Finset.empty_subset J
  · exact Finset.filter_subset _ J

/-- With rapidfuzz absent the fuzzy pass returns the empty set. -/
theorem fuzzy_matched_of_noFuzz (cfg : FuzzCfg) (h : cfg.haveFuzz = false)
    (J R : Finset String) :
    fuzzy_matched cfg J R = ∅ := by
  unfold fuzzy_matched
  rw [if_pos (Or.inl h)]

/-- With an empty resume set the fuzzy pass returns the empty set. -/
theorem fuzzy_matched_of_empty_resume (cfg : FuzzCfg) (J : Finset String) :
    fuzzy_matched cfg J ∅ = ∅ := by
  unfold fuzzy_matched
  rw [if_pos (Or.inr (Or.inr rfl))]

/-- The record produced by `calculate_match` on a non-empty JD set. -/
theorem calculate_match_of_ne (cfg : FuzzCfg) (R J : Finset String)
    (h : ¬ J = ∅) :
    calculate_match cfg R J =
      { common := R ∩ J
        fuzzy_common := fuzzy_matched cfg J R \ (R ∩ J)
        missing := J \ (R ∪ (fuzzy_matched cfg J R \ (R ∩ J)))
        score := round2 (100 * ((0.7 : ℚ) * (((R ∩ J).card : ℚ) / (J.card : ℚ)) +
          (0.3 : ℚ) * min 1 (((fuzzy_matched cfg J R \ (R ∩ J)).card : ℚ) /
            ((max 1 J.card : ℕ) : ℚ)))) } := by
  simp only [calculate_match, if_neg h]

/-- Rounding to two decimals is monotone. -/
theorem round2_mono {a b : ℚ} (h : a ≤ b) : round2 a ≤ round2 b := by
  unfold round2
  have hr : round (a * 100) ≤ round (b * 100) := by
    rw [round_eq, round_eq]
    exact Int.floor_mono (by linarith)
  have hr2 : ((round (a * 100) : ℤ) : ℚ) ≤ ((round (b * 100) : ℤ) : ℚ) := by
    exact_mod_cast hr
  linarith

/-- Rounding an integer to two decimals changes nothing. -/
theorem round2_intCast (n : ℤ) : round2 ((n : ℚ)) = (n : ℚ) := by
  unfold round2
  have h1 : ((n : ℚ)) * 100 = ((n * 100 : ℤ) : ℚ) := by push_cast; ring
  rw [h1, round_intCast]
  push_cast
  field_simp

/-- `round2 70 = 70`. -/
theorem round2_seventy : round2 70 = 70 := by
  have := round2_intCast 70
  norm_num at this
  exact this

/-! ### Generic list lemmas for the normalization proofs -/

/-- A map that fixes every element of the list is the identity. -/
theorem map_eq_self_of {α : Type} {f : α → α} :
    ∀ {l : List α}, (∀ c ∈ l, f c = c) → l.map f = l
  | [], _ => rfl
  | c :: rest, h => by
    rw [List.map_cons, h c (List.mem_cons_self c rest),
      map_eq_self_of (fun x hx => h x (List.mem_cons_of_mem c hx))]

/-- A flat map sending every element of the list to its singleton is the
identity. -/
theorem flatMap_eq_self_of {α : Type} {f : α → List α} :
    ∀ {l : List α}, (∀ c ∈ l, f c = [c]) → l.flatMap f = l
  | [], _ => rfl
  | c :: rest, h => by
    rw [List.flatMap_cons, h c (List.mem_cons_self c rest),
      flatMap_eq_self_of (fun x hx => h x (List.mem_cons_of_mem c hx))]
    rfl

/-- `dropWhile` over an append whose right part starts with a failing
element only drops inside the left part. -/
theorem dropWhile_append_of {α : Type} {p : α → Bool} {b : List α}
    (hb : ∀ x, b.head? = some x → p x = false) :
    ∀ (a : List α), (a ++ b).dropWhile p = a.dropWhile p ++ b
  | [] => by
    cases b with
    | nil => rfl
    | cons x b' => simp [List.dropWhile_cons, hb x rfl]
  | c :: a' => by
    by_cases hc : p c
    · simp only [List.cons_append, List.dropWhile_cons, hc, if_true]
      exact dropWhile_append_of hb a'
    · simp [List.dropWhile_cons, hc]

/-- `takeWhile` over an append whose right part starts with a failing
element only takes inside the left part. -/
theorem takeWhile_append_of {α : Type} {p : α → Bool} {b : List α}
    (hb : ∀ x, b.head? = some x → p x = false) :
    ∀ (a : List α), (a ++ b).takeWhile p = a.takeWhile p
  | [] => by
    cases b with
    | nil => rfl
    | cons x b' => simp [List.takeWhile_cons, hb x rfl]
  | c :: a' => by
    by_cases hc : p c
    · simp only [List.cons_append, List.takeWhile_cons, hc, if_true]
      rw [takeWhile_append_of hb a']
    · simp [List.takeWhile_cons, hc]

/-- The head of a `dropWhile` result fails the predicate. -/
theorem head?_dropWhile_false {α : Type} {p : α → Bool} :
    ∀ {l : List α} {x : α}, (l.dropWhile p).head? = some x → p x = false
  | [], x, h => by simp at h
  | c :: rest, x, h => by
    by_cases hc : p c
    · rw [List.dropWhile_cons, if_pos hc] at h
      exact head?_dropWhile_false h
    · rw [List.dropWhile_cons, if_neg hc] at h
      cases h
      exact Bool.eq_false_iff.mpr hc

/-- A non-empty `dropWhile` result keeps the last element. -/
theorem getLast?_dropWhile {α : Type} {p : α → Bool} :
    ∀ {l : List α}, l.dropWhile p ≠ [] →
      (l.dropWhile p).getLast? = l.getLast?
  | [], h => by simp at h
  | c :: rest, h => by
    by_cases hc : p c
    · rw [List.dropWhile_cons, if_pos hc] at h ⊢
      rw [getLast?_dropWhile h]
      cases rest with
      | nil => exact absurd rfl h
      | cons d t => rw [List.getLast?_cons_cons]
    · rw [List.dropWhile_cons, if_neg hc]

/-- `dropWhile` is the identity when the head already fails the predicate. -/
theorem dropWhile_eq_self_of {α : Type} {p : α → Bool} {l : List α}
    (h : ∀ x, l.head? = some x → p x = false) : l.dropWhile p = l := by
  cases l with
  | nil => rfl
  | cons c rest => rw [List.dropWhile_cons, if_neg (by simp [h c rfl])]

/-- Elements of `stripWs l` come from `l`. -/
theorem mem_stripWs {c : Char} {l : List Char} (h : c ∈ stripWs l) : c ∈ l := by
  unfold stripWs lstripWs rstripWs at h
  have h1 := (List.dropWhile_sublist isPySpace).subset h
  rw [List.mem_reverse] at h1
  have h2 := (List.dropWhile_sublist isPySpace).subset h1
  rw [List.mem_reverse] at h2
  exact h2

/-! ### Properties of the adjacent-run detectors -/

/-- `hasST2` is monotone under removing the head. -/
theorem hasST2_tail {c : Char} {l : List Char}
    (h : hasST2 (c :: l) = false) : hasST2 l = false := by
  cases l with
  | nil => rfl
  | cons b t =>
    rw [hasST2, Bool.or_eq_false_iff] at h
    exact h.2

/-- Prepending preserves an existing adjacent space/tab pair. -/
theorem hasST2_cons_true {c : Char} {l : List Char}
    (h : hasST2 l = true) : hasST2 (c :: l) = true := by
  cases l with
  | nil => simp [hasST2] at h
  | cons b t =>
    rw [hasST2, Bool.or_eq_true]
    exact Or.inr h

/-- Prepending a non-space/tab character does not create a pair. -/
theorem hasST2_cons_false {c : Char} {l : List Char} (hc : isST c = false) :
    hasST2 (c :: l) = hasST2 l := by
  cases l with
  | nil => rfl
  | cons b t => rw [hasST2, hc, Bool.false_and, Bool.false_or]

/-- Prepending anything before a non-space/tab head does not create a
pair. -/
theorem hasST2_cons_head_false {c : Char} {l : List Char}
    (h : ∀ x, l.head? = some x → isST x = false) :
    hasST2 (c :: l) = hasST2 l := by
  cases l with
  | nil => rfl
  | cons b t => rw [hasST2, h b rfl, Bool.and_false, Bool.false_or]

/-- A pair inside the left part survives an append. -/
theorem hasST2_append_left {b : List Char} :
    ∀ {a : List Char}, hasST2 a = true → hasST2 (a ++ b) = true
  | [], h => by simp [hasST2] at h
  | [c], h => by simp [hasST2] at h
  | c :: d :: t, h => by
    rw [hasST2, Bool.or_eq_true] at h
    rw [List.cons_append, List.cons_append]
    cases h with
    | inl h1 => rw [hasST2, ← List.cons_append, h1, Bool.true_or]
    | inr h2 =>
      rw [← List.cons_append]
      exact hasST2_cons_true (hasST2_append_left h2)

/-- A pair inside the right part survives an append. -/
theorem hasST2_append_right {b : List Char} (h : hasST2 b = true) :
    ∀ (a : List Char), hasST2 (a ++ b) = true
  | [] => h
  | c :: a' => by
    rw [List.cons_append]
    exact hasST2_cons_true (hasST2_append_right h a')

/-- `hasNl3` is monotone under removing the head. -/
theorem hasNl3_tail {c : Char} {l : List Char}
    (h : hasNl3 (c :: l) = false) : hasNl3 l = false := by
  cases l with
  | nil => rfl
  | cons b t =>
    cases t with
    | nil => rfl
    | cons d t' =>
      rw [hasNl3, Bool.or_eq_false_iff] at h
      exact h.2

/-- Prepending preserves an existing triple newline. -/
theorem hasNl3_cons_true {c : Char} {l : List Char}
    (h : hasNl3 l = true) : hasNl3 (c :: l) = true := by
  cases l with
  | nil => simp [hasNl3] at h
  | cons b t =>
    cases t with
    | nil => simp [hasNl3] at h
    | cons d t' =>
      rw [hasNl3, Bool.or_eq_true]
      exact Or.inr h

/-- With the second element not a newline no new triple can start at the
head. -/
theorem hasNl3_cons_head_ne {c : Char} {l : List Char}
    (h : ∀ x, l.head? = some x → x ≠ '\n') :
    hasNl3 (c :: l) = hasNl3 l := by
  cases l with
  | nil => rfl
  | cons b t =>
    cases t with
    | nil => rfl
    | cons d t' =>
      have hbd : decide (b = '\n') = false := decide_eq_false (h b rfl)
      rw [hasNl3]
      simp [hbd]

/-- A triple inside the left part survives an append. -/
theorem hasNl3_append_left {b : List Char} :
    ∀ {a : List Char}, hasNl3 a = true → hasNl3 (a ++ b) = true
  | [], h => by simp [hasNl3] at h
  | [c], h => by simp [hasNl3] at h
  | [c, d], h => by simp [hasNl3] at h
  | c :: d :: e :: t, h => by
    rw [hasNl3, Bool.or_eq_true] at h
    rw [List.cons_append, List.cons_append, List.cons_append]
    cases h with
    | inl h1 =>
      rw [hasNl3, ← List.cons_append, ← List.cons_append, h1, Bool.true_or]
    | inr h2 =>
      rw [← List.cons_append, ← List.cons_append]
      exact hasNl3_cons_true (hasNl3_append_left h2)

/-- A triple inside the right part survives an append. -/
theorem hasNl3_append_right {b : List Char} (h : hasNl3 b = true) :
    ∀ (a : List Char), hasNl3 (a ++ b) = true
  | [] => h
  | c :: a' => by
    rw [List.cons_append]
    exact hasNl3_cons_true (hasNl3_append_right h a')

/-- Packing a small scalar value round-trips through `Char.ofNat`. -/
theorem toNat_ofNat_lt {m : ℕ} (h : m < 55296) : (Char.ofNat m).toNat = m := by
  rw [Char.ofNat, dif_pos (Or.inl h)]
  rfl

/-- Lowercasing never produces a carriage return. -/
theorem toLower_ne_cr {y : Char} (hy : y ≠ '\r') : Char.toLower y ≠ '\r' := by
  rw [Char.toLower]
  split
  · intro hcontra
    rename_i hrange
    have h13 := congrArg Char.toNat hcontra
    rw [toNat_ofNat_lt (by omega)] at h13
    have : Char.toNat '\r' = 13 := rfl
    omega
  · exact hy

/-- An allowed character is fixed by `Char.toLower` (no uppercase ASCII is
allowed). -/
theorem toLower_fix_of_allowed {c : Char} (h : isAllowedChar c = true) :
    Char.toLower c = c := by
  simp only [isAllowedChar, isPySpace, pySpaceChars, List.contains,
    List.elem_eq_mem, Bool.or_eq_true, Bool.and_eq_true, decide_eq_true_eq,
    List.mem_cons, List.not_mem_nil, or_false] at h
  rcases h with (((⟨h1, h2⟩ | ⟨h1, h2⟩) | h) | h)
  · have h97 : 97 ≤ Char.toNat c := h1
    rw [Char.toLower]
    rw [if_neg (by omega)]
  · have h57 : Char.toNat c ≤ 57 := h2
    rw [Char.toLower]
    rw [if_neg (by omega)]
  · rcases h with rfl | rfl | rfl | rfl | rfl | rfl | rfl | rfl <;> decide
  · rcases h with rfl | rfl | rfl | rfl | rfl | rfl | rfl | rfl | rfl | rfl |
      rfl | rfl | rfl | rfl | rfl | rfl | rfl | rfl | rfl | rfl | rfl | rfl |
      rfl | rfl | rfl | rfl | rfl | rfl | rfl <;> decide

/-- Prepending a non-newline character does not create a newline triple. -/
theorem hasNl3_cons_ne_first {c : Char} {l : List Char} (hc : c ≠ '\n') :
    hasNl3 (c :: l) = hasNl3 l := by
  cases l with
  | nil => rfl
  | cons b t =>
    cases t with
    | nil => rfl
    | cons d t' =>
      rw [hasNl3, decide_eq_false hc, Bool.false_and, Bool.false_and,
        Bool.false_or]

/-- Unfolding `collapseST` at a non-space/tab head. -/
theorem collapseST_cons_notST {c : Char} {rest : List Char}
    (h1 : ¬ isST c = true) :
    collapseST (c :: rest) = c :: collapseST rest := by
  simp [collapseST, h1]

/-- Unfolding `collapseST` at an isolated space/tab. -/
theorem collapseST_cons_run0 {c : Char} {rest : List Char}
    (h1 : isST c = true) (h2 : (rest.takeWhile isST).length = 0) :
    collapseST (c :: rest) = c :: collapseST rest := by
  simp [collapseST, h1, h2]

/-- Unfolding `collapseST` at the start of a space/tab run of length two or
more. -/
theorem collapseST_cons_run {c : Char} {rest : List Char}
    (h1 : isST c = true) (h2 : ¬ (rest.takeWhile isST).length = 0) :
    collapseST (c :: rest) = ' ' :: collapseST (rest.dropWhile isST) := by
  simp [collapseST, h1, h2]

/-- Unfolding `collapseNL` at a newline. -/
theorem collapseNL_cons_nl {rest : List Char} :
    collapseNL ('\n' :: rest) =
      (if 2 ≤ (rest.takeWhile (fun x => decide (x = '\n'))).length
       then ['\n', '\n']
       else '\n' :: rest.takeWhile (fun x => decide (x = '\n'))) ++
        collapseNL (rest.dropWhile (fun x => decide (x = '\n'))) := by
  simp [collapseNL]

/-- Unfolding `collapseNL` at a non-newline character. -/
theorem collapseNL_cons_ne {c : Char} {rest : List Char} (h1 : ¬ c = '\n') :
    collapseNL (c :: rest) = c :: collapseNL rest := by
  simp [collapseNL, h1]

/-- `collapseNL` of the empty list. -/
theorem collapseNL_nil : collapseNL [] = [] := by
  simp [collapseNL]

/-- `collapseST` of the empty list. -/
theorem collapseST_nil : collapseST [] = [] := by
  simp [collapseST]

/-- Elements of `collapseST l` come from `l` or are the inserted space. -/
theorem mem_collapseST {x : Char} :
    ∀ {l : List Char}, x ∈ collapseST l → x ∈ l ∨ x = ' ' := by
  intro l
  induction l using collapseST.induct with
  | case1 => intro h; rw [collapseST_nil] at h; simp at h
  | case2 c rest h1 h2 ih =>
    intro h
    rw [collapseST_cons_run0 h1 h2] at h
    rcases List.mem_cons.mp h with rfl | hmem
    · exact Or.inl (List.mem_cons_self _ _)
    · rcases ih hmem with hm | hm
      · exact Or.inl (List.mem_cons_of_mem _ hm)
      · exact Or.inr hm
  | case3 c rest h1 h2 ih =>
    intro h
    rw [collapseST_cons_run h1 h2] at h
    rcases List.mem_cons.mp h with rfl | hmem
    · exact Or.inr rfl
    · rcases ih hmem with hm | hm
      · exact Or.inl (List.mem_cons_of_mem _ ((List.dropWhile_sublist _).subset hm))
      · exact Or.inr hm
  | case4 c rest h1 ih =>
    intro h
    rw [collapseST_cons_notST h1] at h
    rcases List.mem_cons.mp h with rfl | hmem
    · exact Or.inl (List.mem_cons_self _ _)
    · rcases ih hmem with hm | hm
      · exact Or.inl (List.mem_cons_of_mem _ hm)
      · exact Or.inr hm

/-- Elements of `collapseNL l` come from `l` or are inserted newlines. -/
theorem mem_collapseNL {x : Char} :
    ∀ {l : List Char}, x ∈ collapseNL l → x ∈ l ∨ x = '\n' := by
  intro l
  induction l using collapseNL.induct with
  | case1 => intro h; rw [collapseNL_nil] at h; simp at h
  | case2 rest ih =>
    intro h
    rw [collapseNL_cons_nl, List.mem_append] at h
    rcases h with hblock | hmem
    · by_cases hlen : 2 ≤ (rest.takeWhile (fun x => decide (x = '\n'))).length
      · rw [if_pos hlen] at hblock
        rcases List.mem_cons.mp hblock with rfl | hb
        · exact Or.inr rfl
        · rcases List.mem_cons.mp hb with rfl | hb2
          · exact Or.inr rfl
          · simp at hb2
      · rw [if_neg hlen] at hblock
        rcases List.mem_cons.mp hblock with rfl | hb
        · exact Or.inr rfl
        · have := List.mem_takeWhile_imp hb
          exact Or.inr (by simpa using this)
    · rcases ih hmem with hm | hm
      · exact Or.inl (List.mem_cons_of_mem _ ((List.dropWhile_sublist _).subset hm))
      · exact Or.inr hm
  | case3 c rest h1 ih =>
    intro h
    rw [collapseNL_cons_ne h1] at h
    rcases List.mem_cons.mp h with rfl | hmem
    · exact Or.inl (List.mem_cons_self _ _)
    · rcases ih hmem with hm | hm
      · exact Or.inl (List.mem_cons_of_mem _ hm)
      · exact Or.inr hm

/-- `collapseNL` keeps the first character. -/
theorem collapseNL_head? : ∀ (l : List Char), (collapseNL l).head? = l.head? := by
  intro l
  induction l using collapseNL.induct with
  | case1 => rw [collapseNL_nil]
  | case2 rest ih =>
    rw [collapseNL_cons_nl]
    by_cases hlen : 2 ≤ (rest.takeWhile (fun x => decide (x = '\n'))).length
    · rw [if_pos hlen]
      rfl
    · rw [if_neg hlen]
      rfl
  | case3 c rest h1 ih =>
    rw [collapseNL_cons_ne h1]
    rfl

/-- A space/tab at the head of `collapseST l` reflects a space/tab head of
`l`. -/
theorem collapseST_headST :
    ∀ {l : List Char} {d : Char}, (collapseST l).head? = some d →
      isST d = true → ∃ e, l.head? = some e ∧ isST e = true := by
  intro l
  induction l using collapseST.induct with
  | case1 => intro d h _; rw [collapseST_nil] at h; simp at h
  | case2 c rest h1 h2 ih =>
    intro d h hd
    rw [collapseST_cons_run0 h1 h2, List.head?_cons] at h
    cases h
    exact ⟨c, rfl, hd⟩
  | case3 c rest h1 h2 ih =>
    intro d h hd
    exact ⟨c, rfl, h1⟩
  | case4 c rest h1 ih =>
    intro d h hd
    rw [collapseST_cons_notST h1, List.head?_cons] at h
    cases h
    exact ⟨c, rfl, hd⟩

/-- Without an adjacent space/tab pair, `collapseST` changes nothing. -/
theorem collapseST_eq_self :
    ∀ {l : List Char}, hasST2 l = false → collapseST l = l := by
  intro l
  induction l using collapseST.induct with
  | case1 => intro _; rw [collapseST_nil]
  | case2 c rest h1 h2 ih =>
    intro h
    rw [collapseST_cons_run0 h1 h2, ih (hasST2_tail h)]
  | case3 c rest h1 h2 ih =>
    intro h
    exfalso
    cases rest with
    | nil => exact h2 rfl
    | cons d t =>
      rw [List.takeWhile_cons] at h2
      by_cases hd : isST d
      · rw [hasST2, h1, hd, Bool.true_and, Bool.true_or] at h
        exact Bool.noConfusion h
      · rw [if_neg (by simp [hd])] at h2
        exact h2 rfl
  | case4 c rest h1 ih =>
    intro h
    rw [collapseST_cons_notST h1, ih (hasST2_tail h)]

/-- `collapseST` leaves no adjacent space/tab pair. -/
theorem hasST2_collapseST : ∀ (l : List Char), hasST2 (collapseST l) = false := by
  intro l
  induction l using collapseST.induct with
  | case1 => rw [collapseST_nil]; rfl
  | case2 c rest h1 h2 ih =>
    rw [collapseST_cons_run0 h1 h2]
    rw [hasST2_cons_head_false]
    · exact ih
    · intro x hx
      by_contra hST
      have hST' : isST x = true := by
        cases hb : isST x
        · exact absurd hb hST
        · rfl
      obtain ⟨e, he, hSTe⟩ := collapseST_headST hx hST'
      cases rest with
      | nil => simp at he
      | cons d t =>
        rw [List.head?_cons] at he
        cases he
        rw [List.takeWhile_cons, if_pos (by simp [hSTe])] at h2
        simp at h2
  | case3 c rest h1 h2 ih =>
    rw [collapseST_cons_run h1 h2]
    rw [hasST2_cons_head_false]
    · exact ih
    · intro x hx
      by_contra hST
      have hST' : isST x = true := by
        cases hb : isST x
        · exact absurd hb hST
        · rfl
      obtain ⟨e, he, hSTe⟩ := collapseST_headST hx hST'
      have := head?_dropWhile_false he
      rw [hSTe] at this
      exact Bool.noConfusion this
  | case4 c rest h1 ih =>
    rw [collapseST_cons_notST h1]
    rw [hasST2_cons_false (by cases hb : isST c; rfl; exact absurd hb h1)]
    exact ih

/-- No pair in an append means no pair in the left part. -/
theorem hasST2_false_left {a b : List Char} (h : hasST2 (a ++ b) = false) :
    hasST2 a = false := by
  cases hb : hasST2 a
  · rfl
  · have := hasST2_append_left (b := b) hb
    rw [h] at this
    exact Bool.noConfusion this

/-- No pair in an append means no pair in the right part. -/
theorem hasST2_false_right {a b : List Char} (h : hasST2 (a ++ b) = false) :
    hasST2 b = false := by
  cases hb : hasST2 b
  · rfl
  · have := hasST2_append_right hb a
    rw [h] at this
    exact Bool.noConfusion this

/-- No triple in an append means no triple in the left part. -/
theorem hasNl3_false_left {a b : List Char} (h : hasNl3 (a ++ b) = false) :
    hasNl3 a = false := by
  cases hb : hasNl3 a
  · rfl
  · have := hasNl3_append_left (b := b) hb
    rw [h] at this
    exact Bool.noConfusion this

/-- No triple in an append means no triple in the right part. -/
theorem hasNl3_false_right {a b : List Char} (h : hasNl3 (a ++ b) = false) :
    hasNl3 b = false := by
  cases hb : hasNl3 b
  · rfl
  · have := hasNl3_append_right hb a
    rw [h] at this
    exact Bool.noConfusion this

/-- Without a triple newline, `collapseNL` changes nothing. -/
theorem collapseNL_eq_self :
    ∀ {l : List Char}, hasNl3 l = false → collapseNL l = l := by
  intro l
  induction l using collapseNL.induct with
  | case1 => intro _; rw [collapseNL_nil]
  | case2 rest ih =>
    intro h
    have hlen : ¬ 2 ≤ (rest.takeWhile (fun x => decide (x = '\n'))).length := by
      intro hlen
      cases rest with
      | nil => simp at hlen
      | cons d t =>
        rw [List.takeWhile_cons] at hlen
        by_cases hd : d = '\n'
        · rw [if_pos (by simp [hd])] at hlen
          cases t with
          | nil => simp at hlen
          | cons e t' =>
            rw [List.takeWhile_cons] at hlen
            by_cases he : e = '\n'
            · subst hd
              subst he
              rw [hasNl3] at h
              simp at h
            · rw [if_neg (by simp [he])] at hlen
              simp at hlen
        · rw [if_neg (by simp [hd])] at hlen
          simp at hlen
    rw [collapseNL_cons_nl, if_neg hlen]
    have hrest : hasNl3 rest = false := hasNl3_tail h
    have hrest' :
        hasNl3 (rest.dropWhile (fun x => decide (x = '\n'))) = false := by
      apply hasNl3_false_right (a := rest.takeWhile (fun x => decide (x = '\n')))
      rw [List.takeWhile_append_dropWhile]
      exact hrest
    rw [ih hrest']
    rw [List.cons_append, List.takeWhile_append_dropWhile]
  | case3 c rest h1 ih =>
    intro h
    rw [collapseNL_cons_ne h1, ih (hasNl3_tail h)]

/-- `collapseNL` leaves no triple newline. -/
theorem hasNl3_collapseNL : ∀ (l : List Char), hasNl3 (collapseNL l) = false := by
  intro l
  induction l using collapseNL.induct with
  | case1 => rw [collapseNL_nil]; rfl
  | case2 rest ih =>
    rw [collapseNL_cons_nl]
    have hXhead : ∀ x,
        (collapseNL (rest.dropWhile (fun x => decide (x = '\n')))).head? =
          some x → x ≠ '\n' := by
      intro x hx
      rw [collapseNL_head?] at hx
      have := head?_dropWhile_false hx
      simpa using this
    by_cases hlen : 2 ≤ (rest.takeWhile (fun x => decide (x = '\n'))).length
    · rw [if_pos hlen]
      cases hX : collapseNL (rest.dropWhile (fun x => decide (x = '\n'))) with
      | nil => rfl
      | cons x t =>
        have hx : x ≠ '\n' := hXhead x (by rw [hX]; rfl)
        show hasNl3 ('\n' :: '\n' :: x :: t) = false
        rw [hasNl3, decide_eq_false hx, Bool.and_false, Bool.false_or]
        rw [hasNl3_cons_head_ne (by intro y hy; cases hy; exact hx)]
        rw [← hX]
        exact ih
    · rw [if_neg hlen]
      cases hrun : rest.takeWhile (fun x => decide (x = '\n')) with
      | nil =>
        rw [List.cons_append, List.nil_append]
        rw [hasNl3_cons_head_ne (by
          intro y hy
          exact hXhead y hy)]
        exact ih
      | cons r run' =>
        have hr : r = '\n' := by
          have : r ∈ rest.takeWhile (fun x => decide (x = '\n')) := by
            rw [hrun]; exact List.mem_cons_self _ _
          simpa using List.mem_takeWhile_imp this
        have hrun' : run' = [] := by
          rw [hrun] at hlen
          cases run' with
          | nil => rfl
          | cons s t => simp at hlen
        subst hr
        subst hrun'
        rw [List.cons_append, List.cons_append, List.nil_append]
        cases hX : collapseNL (rest.dropWhile (fun x => decide (x = '\n'))) with
        | nil => rfl
        | cons x t =>
          have hx : x ≠ '\n' := hXhead x (by rw [hX]; rfl)
          rw [hasNl3, decide_eq_false hx, Bool.and_false, Bool.false_or]
          rw [hasNl3_cons_head_ne (by intro y hy; cases hy; exact hx)]
          rw [← hX]
          exact ih
  | case3 c rest h1 ih =>
    rw [collapseNL_cons_ne h1, hasNl3_cons_ne_first h1]
    exact ih

/-- `collapseNL` creates no adjacent space/tab pair. -/
theorem hasST2_collapseNL :
    ∀ {l : List Char}, hasST2 l = false → hasST2 (collapseNL l) = false := by
  intro l
  induction l using collapseNL.induct with
  | case1 => intro _; rw [collapseNL_nil]; rfl
  | case2 rest ih =>
    intro h
    have hrest : hasST2 rest = false := hasST2_tail h
    have hrest' :
        hasST2 (rest.dropWhile (fun x => decide (x = '\n'))) = false := by
      apply hasST2_false_right (a := rest.takeWhile (fun x => decide (x = '\n')))
      rw [List.takeWhile_append_dropWhile]
      exact hrest
    have hnlST : isST '\n' = false := by decide
    rw [collapseNL_cons_nl]
    by_cases hlen : 2 ≤ (rest.takeWhile (fun x => decide (x = '\n'))).length
    · rw [if_pos hlen, List.cons_append, List.cons_append, List.nil_append]
      rw [hasST2_cons_false hnlST, hasST2_cons_false hnlST]
      exact ih hrest'
    · rw [if_neg hlen]
      cases hrun : rest.takeWhile (fun x => decide (x = '\n')) with
      | nil =>
        rw [List.cons_append, List.nil_append, hasST2_cons_false hnlST]
        exact ih hrest'
      | cons r run' =>
        have hr : r = '\n' := by
          have : r ∈ rest.takeWhile (fun x => decide (x = '\n')) := by
            rw [hrun]; exact List.mem_cons_self _ _
          simpa using List.mem_takeWhile_imp this
        have hrun' : run' = [] := by
          rw [hrun] at hlen
          cases run' with
          | nil => rfl
          | cons s t => simp at hlen
        subst hr
        subst hrun'
        rw [List.cons_append, List.cons_append, List.nil_append]
        rw [hasST2_cons_false hnlST, hasST2_cons_false hnlST]
        exact ih hrest'
  | case3 c rest h1 ih =>
    intro h
    rw [collapseNL_cons_ne h1]
    by_cases hST : isST c = true
    · rw [hasST2_cons_head_false]
      · exact ih (hasST2_tail h)
      · intro x hx
        rw [collapseNL_head?] at hx
        cases rest with
        | nil => simp at hx
        | cons d t =>
          rw [List.head?_cons] at hx
          cases hx
          rw [hasST2, hST, Bool.true_and] at h
          rcases Bool.or_eq_false_iff.mp h with ⟨hd, _⟩
          exact hd
    · rw [hasST2_cons_false (by cases hb : isST c; rfl; exact absurd hb hST)]
      exact ih (hasST2_tail h)

/-- A list splits into its right-strip and the stripped whitespace tail. -/
theorem rstrip_decomp (l : List Char) :
    rstripWs l ++ (l.reverse.takeWhile isPySpace).reverse = l := by
  unfold rstripWs
  rw [← List.reverse_append, List.takeWhile_append_dropWhile,
    List.reverse_reverse]

/-- Stripping preserves the absence of adjacent space/tab pairs. -/
theorem hasST2_stripWs {l : List Char} (h : hasST2 l = false) :
    hasST2 (stripWs l) = false := by
  have h1 : hasST2 (rstripWs l) = false := by
    apply hasST2_false_left (b := (l.reverse.takeWhile isPySpace).reverse)
    rw [rstrip_decomp]
    exact h
  unfold stripWs lstripWs
  apply hasST2_false_right (a := (rstripWs l).takeWhile isPySpace)
  rw [List.takeWhile_append_dropWhile]
  exact h1

/-- Stripping preserves the absence of triple newlines. -/
theorem hasNl3_stripWs {l : List Char} (h : hasNl3 l = false) :
    hasNl3 (stripWs l) = false := by
  have h1 : hasNl3 (rstripWs l) = false := by
    apply hasNl3_false_left (b := (l.reverse.takeWhile isPySpace).reverse)
    rw [rstrip_decomp]
    exact h
  unfold stripWs lstripWs
  apply hasNl3_false_right (a := (rstripWs l).takeWhile isPySpace)
  rw [List.takeWhile_append_dropWhile]
  exact h1

/-- Left-stripping twice equals left-stripping once. -/
theorem lstrip_idem (l : List Char) : lstripWs (lstripWs l) = lstripWs l := by
  unfold lstripWs
  exact dropWhile_eq_self_of (fun x hx => head?_dropWhile_false hx)

/-- Right-stripping is the identity when the last element is not
whitespace. -/
theorem rstrip_eq_self_of {l : List Char}
    (h : ∀ x, l.getLast? = some x → isPySpace x = false) : rstripWs l = l := by
  unfold rstripWs
  rw [dropWhile_eq_self_of (fun x hx => h x (by rw [← List.head?_reverse]; exact hx)),
    List.reverse_reverse]

/-- The last element of a right-stripped list is not whitespace. -/
theorem rstrip_getLast {l : List Char} {x : Char}
    (h : (rstripWs l).getLast? = some x) : isPySpace x = false := by
  unfold rstripWs at h
  rw [List.getLast?_reverse] at h
  exact head?_dropWhile_false h

/-- Stripping twice equals stripping once. -/
theorem stripWs_idem (l : List Char) : stripWs (stripWs l) = stripWs l := by
  have h1 : rstripWs (lstripWs (rstripWs l)) = lstripWs (rstripWs l) := by
    apply rstrip_eq_self_of
    intro x hx
    have hne : lstripWs (rstripWs l) ≠ [] := by
      intro hnil
      rw [hnil] at hx
      simp at hx
    unfold lstripWs at hx hne
    rw [getLast?_dropWhile hne] at hx
    exact rstrip_getLast hx
  show stripWs (lstripWs (rstripWs l)) = _
  unfold stripWs
  rw [h1]
  rw [show lstripWs (lstripWs (rstripWs l)) = lstripWs (rstripWs l) from
    lstrip_idem _]

/-- The carriage-return replacement step never outputs a carriage return. -/
theorem crToNl_ne_cr (x : Char) : crToNl x ≠ '\r' := by
  unfold crToNl
  split
  · decide
  · assumption

/-- No bullet glyph lies in the allowed character class. -/
theorem not_bullet_of_allowed {c : Char} (h : isAllowedChar c = true) :
    isBullet c = false := by
  cases hb : isBullet c
  · rfl
  · exfalso
    have hmem : c ∈ bulletChars := by
      simpa [isBullet, List.contains, List.elem_eq_mem] using hb
    simp only [bulletChars, List.mem_cons, List.not_mem_nil, or_false] at hmem
    rcases hmem with rfl | rfl | rfl | rfl | rfl | rfl | rfl | rfl <;>
      exact Bool.noConfusion h

/-- The lowercasing stage of `clean_text` never contains a carriage
return. -/
theorem t3_ne_cr {l : List Char} {x : Char}
    (hx : x ∈ ((l.map crToNl).flatMap bulletSub).map Char.toLower) :
    x ≠ '\r' := by
  obtain ⟨y, hy, rfl⟩ := List.mem_map.mp hx
  apply toLower_ne_cr
  obtain ⟨z, hz, hyz⟩ := List.mem_flatMap.mp hy
  revert hyz
  unfold bulletSub
  split
  · intro hyz
    rcases List.mem_cons.mp hyz with rfl | hyz2
    · decide
    · rcases List.mem_cons.mp hyz2 with rfl | hyz3
      · decide
      · rcases List.mem_cons.mp hyz3 with rfl | hyz4
        · decide
        · simp at hyz4
  · intro hyz
    rcases List.mem_cons.mp hyz with rfl | hyz2
    · obtain ⟨w, hw, rfl⟩ := List.mem_map.mp hz
      exact crToNl_ne_cr w
    · simp at hyz2

/-- Every character of a cleaned text is allowed and is not a carriage
return. -/
theorem cleanChars_mem {l : List Char} {c : Char} (hc : c ∈ cleanChars l) :
    isAllowedChar c = true ∧ c ≠ '\r' := by
  unfold cleanChars at hc
  have h1 := mem_stripWs hc
  rcases mem_collapseNL h1 with h2 | rfl
  · rcases mem_collapseST h2 with h3 | rfl
    · obtain ⟨x, hx, rfl⟩ := List.mem_map.mp h3
      constructor
      · unfold keepAllowed
        split
        · assumption
        · decide
      · unfold keepAllowed
        split
        · exact t3_ne_cr hx
        · decide
    · exact ⟨by decide, by decide⟩
  · exact ⟨by decide, by decide⟩

/-- Idempotence of the character-level cleaning pipeline. -/
theorem cleanChars_idem (l : List Char) :
    cleanChars (cleanChars l) = cleanChars l := by
  have hmem : ∀ c ∈ cleanChars l, isAllowedChar c = true ∧ c ≠ '\r' :=
    fun c hc => cleanChars_mem hc
  have h1 : (cleanChars l).map crToNl = cleanChars l :=
    map_eq_self_of (fun c hc => by
      unfold crToNl
      rw [if_neg (hmem c hc).2])
  have h2 : (cleanChars l).flatMap bulletSub = cleanChars l :=
    flatMap_eq_self_of (fun c hc => by
      unfold bulletSub
      rw [if_neg (by simp [not_bullet_of_allowed (hmem c hc).1])])
  have h3 : (cleanChars l).map Char.toLower = cleanChars l :=
    map_eq_self_of (fun c hc => toLower_fix_of_allowed (hmem c hc).1)
  have h4 : (cleanChars l).map keepAllowed = cleanChars l :=
    map_eq_self_of (fun c hc => by
      unfold keepAllowed
      rw [if_pos (hmem c hc).1])
  have hstT : hasST2 (cleanChars l) = false := by
    unfold cleanChars
    exact hasST2_stripWs (hasST2_collapseNL (hasST2_collapseST _))
  have hnlT : hasNl3 (cleanChars l) = false := by
    unfold cleanChars
    exact hasNl3_stripWs (hasNl3_collapseNL _)
  have h7 : stripWs (cleanChars l) = cleanChars l := by
    unfold cleanChars
    exact stripWs_idem _
  set T := cleanChars l with hT
  show cleanChars T = T
  unfold cleanChars
  rw [h1, h2, h3, h4, collapseST_eq_self hstT, collapseNL_eq_self hnlT, h7]

/-- C7: the text normalizer is idempotent: cleaning an already cleaned
text changes nothing. -/
theorem claim_C7 (s : String) : clean_text (clean_text s) = clean_text s := by
  show (⟨cleanChars (⟨cleanChars s.data⟩ : String).data⟩ : String) = _
  exact congrArg String.mk (cleanChars_idem s.data)

/-- C4: for every keyword set R, `calculate_match(R, ∅)` returns
immediately with empty `common`, `fuzzy_common` and `missing` and score 0. -/
theorem claim_C4 (cfg : FuzzCfg) (R : Finset String) :
    calculate_match cfg R ∅ = ⟨∅, ∅, ∅, 0⟩ := by
  simp [calculate_match]

/-- C1 counterexample: at R = J = singleton non-empty set, the score is
70.00, not 100.00 as the claim states. -/
theorem claim_C1_counterexample :
    ({"a"} : Finset String).Nonempty ∧
      (calculate_match cfgNoFuzz {"a"} {"a"}).score = 70 ∧
      ¬ ((70 : ℚ) = 100) := by
  refine ⟨by decide, ?_, by norm_num⟩
  rw [calculate_match_of_ne _ _ _ (by decide)]
  have hfm : fuzzy_matched cfgNoFuzz {"a"} {"a"} = ∅ :=
    fuzzy_matched_of_noFuzz cfgNoFuzz rfl _ _
  simp only [hfm, Finset.inter_self, Finset.empty_sdiff, Finset.card_empty,
    Finset.card_singleton]
  norm_num
  exact round2_seventy

/-- C1 amended: with R = J non-empty, `common = J`, `missing = ∅` and the
score is exactly 70.00 (0.7 weight on full exact coverage, and the fuzzy
term is empty because `fuzzy_common` excludes exact matches). -/
theorem claim_C1_amended (cfg : FuzzCfg) (J : Finset String) (h : J.Nonempty) :
    calculate_match cfg J J = ⟨J, ∅, ∅, 70⟩ := by
  have hne : ¬ J = ∅ := h.ne_empty
  have hcard : ((J.card : ℚ)) ≠ 0 := by
    exact_mod_cast Finset.card_ne_zero.mpr h
  rw [calculate_match_of_ne _ _ _ hne, Finset.inter_self]
  have hfm : fuzzy_matched cfg J J \ J = ∅ :=
    Finset.sdiff_eq_empty_iff_subset.mpr (fuzzy_matched_subset cfg J J)
  rw [hfm]
  simp only [Finset.union_empty, Finset.sdiff_self, Finset.card_empty,
    Nat.cast_zero, zero_div, div_self hcard, MatchResult.mk.injEq, true_and]
  have hmin : min (1 : ℚ) 0 = 0 := by norm_num
  rw [hmin]
  norm_num
  exact round2_seventy

/-- C1 amended, witnessed at J = singleton. -/
theorem claim_C1_witness :
    calculate_match cfgNoFuzz {"a"} {"a"} = ⟨{"a"}, ∅, ∅, 70⟩ :=
  claim_C1_amended cfgNoFuzz {"a"} (by decide)

/-- C2: on a non-empty JD set the score is
`round2(100 * (0.7 * |common|/|J| + 0.3 * min 1 (|fuzzy_common|/|J|)))`,
and the spec's end-to-end scenario (fuzzy disabled) yields
`common = {python, sql, aws}`, `fuzzy_common = ∅`,
`missing = {machine learning, docker}`, `score = 42.00`. -/
theorem claim_C2 :
    (∀ (cfg : FuzzCfg) (R J : Finset String), J.Nonempty →
      (calculate_match cfg R J).score =
        round2 (100 * ((0.7 : ℚ) *
            (((calculate_match cfg R J).common.card : ℚ) / (J.card : ℚ)) +
          (0.3 : ℚ) * min 1
            (((calculate_match cfg R J).fuzzy_common.card : ℚ) / (J.card : ℚ))))) ∧
    calculate_match cfgNoFuzz {"python", "sql", "data analysis", "aws"}
        {"python", "sql", "machine learning", "aws", "docker"} =
      ⟨{"python", "sql", "aws"}, ∅, {"machine learning", "docker"}, 42⟩ := by
  constructor
  · intro cfg R J h
    rw [calculate_match_of_ne _ _ _ h.ne_empty]
    rw [max_eq_right (Finset.one_le_card.mpr h)]
  · rw [calculate_match_of_ne _ _ _ (by decide)]
    have hfm : fuzzy_matched cfgNoFuzz
        {"python", "sql", "machine learning", "aws", "docker"}
        {"python", "sql", "data analysis", "aws"} = ∅ :=
      fuzzy_matched_of_noFuzz cfgNoFuzz rfl _ _
    rw [hfm]
    have hc : ({"python", "sql", "data analysis", "aws"} : Finset String) ∩
        {"python", "sql", "machine learning", "aws", "docker"} =
        {"python", "sql", "aws"} := by decide
    rw [hc]
    have h3 : ({"python", "sql", "aws"} : Finset String).card = 3 := by decide
    have h5 : (({"python", "sql", "machine learning", "aws", "docker"} :
        Finset String)).card = 5 := by decide
    rw [h3, h5]
    simp only [Finset.empty_sdiff, Finset.union_empty, Finset.card_empty,
      Nat.cast_zero, zero_div, MatchResult.mk.injEq, true_and]
    refine ⟨by decide, ?_⟩
    have hmin : min (1 : ℚ) 0 = 0 := by norm_num
    rw [hmin]
    have harg : (100 : ℚ) * ((0.7 : ℚ) * (((3 : ℕ) : ℚ) / ((5 : ℕ) : ℚ)) +
        (0.3 : ℚ) * 0) = ((42 : ℤ) : ℚ) := by push_cast; norm_num
    rw [harg, round2_intCast]
    norm_num

/-- C3: `common ⊆ R`, `common ⊆ J`, `missing ⊆ J`, the three output sets
are pairwise disjoint, and for non-empty J they partition J. -/
theorem claim_C3 (cfg : FuzzCfg) (R J : Finset String) :
    (calculate_match cfg R J).common ⊆ R ∧
    (calculate_match cfg R J).common ⊆ J ∧
    (calculate_match cfg R J).missing ⊆ J ∧
    Disjoint (calculate_match cfg R J).common (calculate_match cfg R J).fuzzy_common ∧
    Disjoint (calculate_match cfg R J).common (calculate_match cfg R J).missing ∧
    Disjoint (calculate_match cfg R J).fuzzy_common (calculate_match cfg R J).missing ∧
    (J.Nonempty →
      (calculate_match cfg R J).common ∪ (calculate_match cfg R J).fuzzy_common ∪
        (calculate_match cfg R J).missing = J) := by
  by_cases hJ : J = ∅
  · subst hJ
    simp [calculate_match, Finset.not_nonempty_empty]
  · rw [calculate_match_of_ne _ _ _ hJ]
    have hFJ : fuzzy_matched cfg J R ⊆ J := fuzzy_matched_subset cfg J R
    refine ⟨Finset.inter_subset_left, Finset.inter_subset_right,
      Finset.sdiff_subset, Finset.disjoint_sdiff, ?_, ?_, ?_⟩
    · rw [Finset.disjoint_left]
      intro a ha hb
      simp only [Finset.mem_sdiff, Finset.mem_union, Finset.mem_inter] at ha hb
      tauto
    · rw [Finset.disjoint_left]
      intro a ha hb
      simp only [Finset.mem_sdiff, Finset.mem_union, Finset.mem_inter] at ha hb
      tauto
    · intro _
      ext x
      have hFx : x ∈ fuzzy_matched cfg J R → x ∈ J := fun hh => hFJ hh
      simp only [Finset.mem_union, Finset.mem_inter, Finset.mem_sdiff]
      tauto

/-- C3, witnessed: the partition equation at a concrete non-empty JD set. -/
theorem claim_C3_witness :
    (calculate_match cfgNoFuzz {"a"} {"b"}).common ∪
      (calculate_match cfgNoFuzz {"a"} {"b"}).fuzzy_common ∪
      (calculate_match cfgNoFuzz {"a"} {"b"}).missing = {"b"} :=
  (claim_C3 cfgNoFuzz {"a"} {"b"}).2.2.2.2.2.2 (by decide)

/-- C10: the score never exceeds 70: exact and fuzzy credit are disjoint
subsets of the JD set, so `0.7·|common|/|J| + 0.3·min(1,|fuzzy|/|J|) ≤ 0.7`;
a score of 100 is unreachable. -/
theorem claim_C10 (cfg : FuzzCfg) (R J : Finset String) :
    (calculate_match cfg R J).score ≤ 70 := by
  by_cases hJ : J = ∅
  · subst hJ
    have h0 : calculate_match cfg R ∅ = ⟨∅, ∅, ∅, 0⟩ := by simp [calculate_match]
    rw [h0]
    norm_num
  · rw [calculate_match_of_ne _ _ _ hJ]
    have hne : J.Nonempty := Finset.nonempty_iff_ne_empty.mpr hJ
    have hn : 0 < J.card := Finset.card_pos.mpr hne
    have hnQ : (0 : ℚ) < (J.card : ℚ) := by exact_mod_cast hn
    rw [max_eq_right hn]
    set c := (R ∩ J).card with hc
    set fz := (fuzzy_matched cfg J R \ (R ∩ J)).card with hfz
    have hsum : c + fz ≤ J.card := by
      have hdisj : Disjoint (R ∩ J) (fuzzy_matched cfg J R \ (R ∩ J)) :=
        Finset.disjoint_sdiff
      have hsub : (R ∩ J) ∪ (fuzzy_matched cfg J R \ (R ∩ J)) ⊆ J :=
        Finset.union_subset Finset.inter_subset_right
          (Finset.Subset.trans Finset.sdiff_subset (fuzzy_matched_subset cfg J R))
      calc c + fz = ((R ∩ J) ∪ (fuzzy_matched cfg J R \ (R ∩ J))).card :=
            (Finset.card_union_of_disjoint hdisj).symm
        _ ≤ J.card := Finset.card_le_card hsub
    have hsumQ : (c : ℚ) + (fz : ℚ) ≤ (J.card : ℚ) := by exact_mod_cast hsum
    have hfz0 : (0 : ℚ) ≤ (fz : ℚ) := by positivity
    have hmin : min (1 : ℚ) ((fz : ℚ) / (J.card : ℚ)) ≤ (fz : ℚ) / (J.card : ℚ) :=
      min_le_right _ _
    have key : ((70 : ℚ) * (c : ℚ) + 30 * (fz : ℚ)) / (J.card : ℚ) ≤ 70 := by
      rw [div_le_iff₀ hnQ]
      linarith
    have heq : (100 : ℚ) * ((0.7 : ℚ) * ((c : ℚ) / (J.card : ℚ)) +
        (0.3 : ℚ) * ((fz : ℚ) / (J.card : ℚ))) =
        ((70 : ℚ) * (c : ℚ) + 30 * (fz : ℚ)) / (J.card : ℚ) := by
      field_simp
      ring
    have hX : (100 : ℚ) * ((0.7 : ℚ) * ((c : ℚ) / (J.card : ℚ)) +
        (0.3 : ℚ) * min 1 ((fz : ℚ) / (J.card : ℚ))) ≤ 70 := by
      have step : (100 : ℚ) * ((0.7 : ℚ) * ((c : ℚ) / (J.card : ℚ)) +
          (0.3 : ℚ) * min 1 ((fz : ℚ) / (J.card : ℚ))) ≤
          (100 : ℚ) * ((0.7 : ℚ) * ((c : ℚ) / (J.card : ℚ)) +
          (0.3 : ℚ) * ((fz : ℚ) / (J.card : ℚ))) := by linarith
      linarith [step, heq.le, heq.ge, key]
    calc round2 _ ≤ round2 70 := round2_mono hX
      _ = 70 := round2_seventy

/-- C8 amended (fuzzy disabled): adding an exact missing term to the resume
set shrinks `missing` by exactly one and does not decrease the score. -/
theorem claim_C8_amended (O : String → List String → Option (String × ℚ))
    (cut : ℚ) (R J : Finset String) (t : String)
    (h : t ∈ (calculate_match ⟨false, O, cut⟩ R J).missing) :
    (calculate_match ⟨false, O, cut⟩ (insert t R) J).missing.card + 1 =
      (calculate_match ⟨false, O, cut⟩ R J).missing.card ∧
    (calculate_match ⟨false, O, cut⟩ R J).score ≤
      (calculate_match ⟨false, O, cut⟩ (insert t R) J).score := by
  have hJ : ¬ J = ∅ := by
    intro he
    rw [he] at h
    have h0 : calculate_match ⟨false, O, cut⟩ R ∅ = ⟨∅, ∅, ∅, 0⟩ := by
      simp [calculate_match]
    rw [h0] at h
    exact absurd h (Finset.not_mem_empty t)
  have hfm1 : fuzzy_matched ⟨false, O, cut⟩ J R = ∅ :=
    fuzzy_matched_of_noFuzz _ rfl _ _
  have hfm2 : fuzzy_matched ⟨false, O, cut⟩ J (insert t R) = ∅ :=
    fuzzy_matched_of_noFuzz _ rfl _ _
  rw [calculate_match_of_ne _ _ _ hJ] at h
  simp only [hfm1, Finset.empty_sdiff, Finset.union_empty, Finset.mem_sdiff] at h
  obtain ⟨htJ, htR⟩ := h
  have hne : J.Nonempty := Finset.nonempty_iff_ne_empty.mpr hJ
  have hn : 0 < J.card := Finset.card_pos.mpr hne
  have hnQ : (0 : ℚ) < (J.card : ℚ) := by exact_mod_cast hn
  rw [calculate_match_of_ne _ _ _ hJ, calculate_match_of_ne _ _ _ hJ]
  simp only [hfm1, hfm2, Finset.empty_sdiff, Finset.union_empty,
    Finset.card_empty, Nat.cast_zero, zero_div]
  constructor
  · -- cardinality part
    have hmem : t ∈ J \ R := Finset.mem_sdiff.mpr ⟨htJ, htR⟩
    rw [Finset.sdiff_insert, Finset.card_erase_of_mem hmem]
    have hpos : 0 < (J \ R).card := Finset.card_pos.mpr ⟨t, hmem⟩
    omega
  · -- score part
    have hcommon : insert t R ∩ J = insert t (R ∩ J) := by
      ext x
      simp only [Finset.mem_inter, Finset.mem_insert]
      constructor
      · rintro ⟨hx | hx, hxJ⟩
        · exact Or.inl hx
        · exact Or.inr ⟨hx, hxJ⟩
      · rintro (rfl | ⟨hx, hxJ⟩)
        · exact ⟨Or.inl rfl, htJ⟩
        · exact ⟨Or.inr hx, hxJ⟩
    have htRJ : t ∉ R ∩ J := fun hx => htR (Finset.mem_inter.mp hx).1
    rw [hcommon, Finset.card_insert_of_not_mem htRJ]
    apply round2_mono
    have hdiv : ((R ∩ J).card : ℚ) / (J.card : ℚ) ≤
        (((R ∩ J).card + 1 : ℕ) : ℚ) / (J.card : ℚ) := by
      gcongr
      linarith
    linarith [hdiv]

/-- C8 amended, witnessed at a concrete instance. -/
theorem claim_C8_witness :
    (calculate_match ⟨false, fun _ _ => none, 88⟩ (insert "a" ∅)
        {"a", "b"}).missing.card + 1 =
      (calculate_match ⟨false, fun _ _ => none, 88⟩ ∅ {"a", "b"}).missing.card :=
  (claim_C8_amended (fun _ _ => none) 88 ∅ {"a", "b"} "a" (by decide)).1

/-- C8 counterexample: with fuzzy matching active, adding the missing term
"machine learning" to an empty resume also removes
"machine learning engineer" from `missing` by fuzzy credit
(`token_set_ratio` scores token-subset pairs at 100 ≥ 88), so `missing`
shrinks by two, not exactly one. -/
theorem claim_C8_counterexample :
    "machine learning" ∈ (calculate_match cfgSubsetFuzz ∅
        {"machine learning", "machine learning engineer"}).missing ∧
    ¬ ((calculate_match cfgSubsetFuzz {"machine learning"}
          {"machine learning", "machine learning engineer"}).missing.card + 1 =
        (calculate_match cfgSubsetFuzz ∅
          {"machine learning", "machine learning engineer"}).missing.card) := by
  have hJ : ¬ ({"machine learning", "machine learning engineer"} :
      Finset String) = ∅ := by decide
  have hfm2 : fuzzy_matched cfgSubsetFuzz
      {"machine learning", "machine learning engineer"} {"machine learning"} =
      {"machine learning", "machine learning engineer"} := by
    simp only [fuzzy_matched]
    rw [if_neg (by decide)]
    rw [Finset.sort_singleton]
    decide
  have hm1 : (calculate_match cfgSubsetFuzz ∅
      {"machine learning", "machine learning engineer"}).missing =
      {"machine learning", "machine learning engineer"} := by
    rw [calculate_match_of_ne _ _ _ hJ]
    rw [fuzzy_matched_of_empty_resume]
    decide
  have hm2 : (calculate_match cfgSubsetFuzz {"machine learning"}
      {"machine learning", "machine learning engineer"}).missing = ∅ := by
    rw [calculate_match_of_ne _ _ _ hJ, hfm2]
    decide
  rw [hm1, hm2]
  exact ⟨by decide, by decide⟩

/-- C5 counterexample: for an existing `resume.pages` the entry point does
raise `ValueError`, but with the fixed message
"Unsupported format. Use PDF or DOCX.", which does not contain the
offending extension ".pages". -/
theorem claim_C5_counterexample :
    extract_resume_text (fun _ => true) (fun _ => []) (fun _ => ⟨[], []⟩)
        "resume.pages" true =
      .error (.valueError "Unsupported format. Use PDF or DOCX.") ∧
    (splitext "resume.pages").2 = ".pages" ∧
    hasSubstrB ".pages".data
      "Unsupported format. Use PDF or DOCX.".data = false := by
  exact ⟨by decide, by decide, by decide⟩

/-- C5 amended: a missing path raises `FileNotFoundError` naming the path,
and an existing path with an extension other than .pdf/.docx raises
`ValueError` with the fixed message
"Unsupported format. Use PDF or DOCX." (the extension is not named). -/
theorem claim_C5_amended (isfile : String → Bool)
    (pp : String → List String) (dd : String → DocxDoc)
    (p : String) (clean : Bool) :
    (isfile p = false →
      extract_resume_text isfile pp dd p clean =
        .error (.fileNotFound ("File not found: " ++ p))) ∧
    (isfile p = true →
      strToLower (splitext p).2 ≠ ".pdf" →
      strToLower (splitext p).2 ≠ ".docx" →
      extract_resume_text isfile pp dd p clean =
        .error (.valueError "Unsupported format. Use PDF or DOCX.")) := by
  constructor
  · intro h
    simp [extract_resume_text, h]
  · intro h1 h2 h3
    simp [extract_resume_text, h1, h2, h3]

/-- C5 amended, witnessed at a missing .pdf path and an existing .txt path. -/
theorem claim_C5_witness :
    extract_resume_text (fun _ => false) (fun _ => []) (fun _ => ⟨[], []⟩)
        "gone.pdf" true =
      .error (.fileNotFound ("File not found: " ++ "gone.pdf")) ∧
    extract_resume_text (fun _ => true) (fun _ => []) (fun _ => ⟨[], []⟩)
        "resume.txt" false =
      .error (.valueError "Unsupported format. Use PDF or DOCX.") :=
  ⟨(claim_C5_amended _ _ _ _ _).1 rfl,
   (claim_C5_amended _ _ _ _ _).2 rfl (by decide) (by decide)⟩

/-! ### Lemmas for the technical-token scanner -/

/-- `takeWhile` is the identity on a list of satisfying elements. -/
theorem takeWhile_eq_self_of {α : Type} {p : α → Bool} :
    ∀ {l : List α}, (∀ c ∈ l, p c = true) → l.takeWhile p = l
  | [], _ => rfl
  | c :: rest, h => by
    rw [List.takeWhile_cons, if_pos (h c (List.mem_cons_self c rest)),
      takeWhile_eq_self_of (fun x hx => h x (List.mem_cons_of_mem c hx))]

/-- `dropWhile` over an append stops inside a left part containing a
failing element. -/
theorem dropWhile_append_inner {α : Type} {p : α → Bool} {b : List α} :
    ∀ {a : List α}, (∃ x ∈ a, p x = false) →
      (a ++ b).dropWhile p = a.dropWhile p ++ b
  | [], h => by simp at h
  | c :: a', h => by
    by_cases hc : p c
    · obtain ⟨x, hx, hpx⟩ := h
      rcases List.mem_cons.mp hx with rfl | hx'
      · rw [hc] at hpx; exact Bool.noConfusion hpx
      · simp only [List.cons_append, List.dropWhile_cons, hc, if_true]
        exact dropWhile_append_inner ⟨x, hx', hpx⟩
    · simp [List.dropWhile_cons, hc]

/-- `dropWhile` keeps something when some element fails the predicate. -/
theorem dropWhile_ne_nil_of {α : Type} {p : α → Bool} {a : List α}
    (h : ∃ x ∈ a, p x = false) : a.dropWhile p ≠ [] := by
  intro hnil
  obtain ⟨x, hx, hpx⟩ := h
  have : a.takeWhile p = a := by
    have := List.takeWhile_append_dropWhile p a
    rw [hnil, List.append_nil] at this
    exact this
  rw [← this] at hx
  rw [List.mem_takeWhile_imp hx] at hpx
  exact Bool.noConfusion hpx

/-- A regex start character is also a continuation character. -/
theorem isTechCont_of_start {c : Char} (h : isTechStart c = true) :
    isTechCont c = true := by
  unfold isTechCont
  unfold isTechStart at h
  rw [h, Bool.true_or]

/-- Continuation characters are not space or tab. -/
theorem not_isST_of_cont {c : Char} (h : isTechCont c = true) :
    isST c = false := by
  by_cases hsp : c = ' '
  · subst hsp; exact Bool.noConfusion h
  · by_cases htb : c = '\t'
    · subst htb; exact Bool.noConfusion h
    · unfold isST
      rw [decide_eq_false hsp, decide_eq_false htb]
      rfl

/-- Continuation characters are not newlines. -/
theorem ne_nl_of_cont {c : Char} (h : isTechCont c = true) : c ≠ '\n' := by
  intro hc
  subst hc
  exact Bool.noConfusion h

/-- Continuation characters are not Python whitespace. -/
theorem not_pySpace_of_cont {c : Char} (h : isTechCont c = true) :
    isPySpace c = false := by
  cases hb : isPySpace c
  · rfl
  · exfalso
    have hmem : c ∈ pySpaceChars := by
      simpa [isPySpace, List.contains, List.elem_eq_mem] using hb
    simp only [pySpaceChars, List.mem_cons, List.not_mem_nil, or_false] at hmem
    rcases hmem with rfl | rfl | rfl | rfl | rfl | rfl | rfl | rfl | rfl | rfl |
      rfl | rfl | rfl | rfl | rfl | rfl | rfl | rfl | rfl | rfl | rfl | rfl |
      rfl | rfl | rfl | rfl | rfl | rfl | rfl <;> exact Bool.noConfusion h

/-- `collapseST` distributes over an append whose right part does not start
with space or tab. -/
theorem collapseST_append {b : List Char}
    (hb : ∀ x, b.head? = some x → isST x = false) :
    ∀ (a : List Char), collapseST (a ++ b) = collapseST a ++ collapseST b := by
  intro a
  induction a using collapseST.induct with
  | case1 => rw [List.nil_append, collapseST_nil, List.nil_append]
  | case2 c rest h1 h2 ih =>
    rw [List.cons_append]
    have htw : (rest ++ b).takeWhile isST = rest.takeWhile isST :=
      takeWhile_append_of hb rest
    rw [collapseST_cons_run0 h1 (by rw [htw]; exact h2), ih,
      collapseST_cons_run0 h1 h2, List.cons_append]
  | case3 c rest h1 h2 ih =>
    rw [List.cons_append]
    have htw : (rest ++ b).takeWhile isST = rest.takeWhile isST :=
      takeWhile_append_of hb rest
    have hdw : (rest ++ b).dropWhile isST = rest.dropWhile isST ++ b :=
      dropWhile_append_of hb rest
    rw [collapseST_cons_run h1 (by rw [htw]; exact h2), hdw, ih,
      collapseST_cons_run h1 h2, List.cons_append]
  | case4 c rest h1 ih =>
    rw [List.cons_append, collapseST_cons_notST h1, ih,
      collapseST_cons_notST h1, List.cons_append]

/-- `collapseNL` distributes over an append whose right part does not start
with a newline. -/
theorem collapseNL_append {b : List Char}
    (hb : ∀ x, b.head? = some x → x ≠ '\n') :
    ∀ (a : List Char), collapseNL (a ++ b) = collapseNL a ++ collapseNL b := by
  intro a
  have hb' : ∀ x, b.head? = some x → (fun x => decide (x = '\n')) x = false :=
    fun x hx => decide_eq_false (hb x hx)
  induction a using collapseNL.induct with
  | case1 => rw [List.nil_append, collapseNL_nil, List.nil_append]
  | case2 rest ih =>
    rw [List.cons_append]
    have htw : (rest ++ b).takeWhile (fun x => decide (x = '\n')) =
        rest.takeWhile (fun x => decide (x = '\n')) :=
      takeWhile_append_of hb' rest
    have hdw : (rest ++ b).dropWhile (fun x => decide (x = '\n')) =
        rest.dropWhile (fun x => decide (x = '\n')) ++ b :=
      dropWhile_append_of hb' rest
    rw [collapseNL_cons_nl, collapseNL_cons_nl, htw, hdw, ih, List.append_assoc]
  | case3 c rest h1 ih =>
    rw [List.cons_append, collapseNL_cons_ne h1, ih, collapseNL_cons_ne h1,
      List.cons_append]

/-- `collapseST` passes over a block without spaces or tabs. -/
theorem collapseST_pass {y : List Char} :
    ∀ {m : List Char}, (∀ c ∈ m, isST c = false) →
      collapseST (m ++ y) = m ++ collapseST y
  | [], _ => by rw [List.nil_append, List.nil_append]
  | c :: m', h => by
    rw [List.cons_append,
      collapseST_cons_notST (by rw [h c (List.mem_cons_self c m')]; exact Bool.false_ne_true),
      collapseST_pass (fun x hx => h x (List.mem_cons_of_mem c hx)),
      List.cons_append]

/-- `collapseNL` passes over a block without newlines. -/
theorem collapseNL_pass {y : List Char} :
    ∀ {m : List Char}, (∀ c ∈ m, c ≠ '\n') →
      collapseNL (m ++ y) = m ++ collapseNL y
  | [], _ => by rw [List.nil_append, List.nil_append]
  | c :: m', h => by
    rw [List.cons_append, collapseNL_cons_ne (h c (List.mem_cons_self c m')),
      collapseNL_pass (fun x hx => h x (List.mem_cons_of_mem c hx)),
      List.cons_append]

/-- `collapseST` never empties a non-empty list. -/
theorem collapseST_ne_nil : ∀ {l : List Char}, l ≠ [] → collapseST l ≠ []
  | [], h => absurd rfl h
  | c :: rest, _ => by
    by_cases h1 : isST c = true
    · by_cases h2 : (rest.takeWhile isST).length = 0
      · rw [collapseST_cons_run0 h1 h2]; exact List.cons_ne_nil _ _
      · rw [collapseST_cons_run h1 h2]; exact List.cons_ne_nil _ _
    · rw [collapseST_cons_notST h1]; exact List.cons_ne_nil _ _

/-- `collapseNL` never empties a non-empty list. -/
theorem collapseNL_ne_nil : ∀ {l : List Char}, l ≠ [] → collapseNL l ≠ []
  | [], h => absurd rfl h
  | c :: rest, _ => by
    by_cases h1 : c = '\n'
    · subst h1
      rw [collapseNL_cons_nl]
      by_cases h2 : 2 ≤ (rest.takeWhile (fun x => decide (x = '\n'))).length
      · rw [if_pos h2]; simp
      · rw [if_neg h2]; simp
    · rw [collapseNL_cons_ne h1]; exact List.cons_ne_nil _ _

/-- `getLast?` ignores the head when the tail is non-empty. -/
theorem getLast?_cons_of_ne_nil {α : Type} {c : α} {X : List α} (h : X ≠ []) :
    (c :: X).getLast? = X.getLast? := by
  cases X with
  | nil => exact absurd rfl h
  | cons d t => rw [List.getLast?_cons_cons]

/-- If a list ends in a space/tab, so does its `collapseST`. -/
theorem collapseST_last_ST :
    ∀ {l : List Char} {x : Char}, l.getLast? = some x → isST x = true →
      ∃ y, (collapseST l).getLast? = some y ∧ isST y = true := by
  intro l
  induction l using collapseST.induct with
  | case1 => intro x h _; simp at h
  | case2 c rest h1 h2 ih =>
    intro x h hST
    rw [collapseST_cons_run0 h1 h2]
    cases rest with
    | nil =>
      rw [collapseST_nil]
      simp only [List.getLast?_singleton, Option.some.injEq] at h
      exact ⟨c, by simp, by rw [h]; exact hST⟩
    | cons d t =>
      rw [List.getLast?_cons_cons] at h
      obtain ⟨y, hy, hSTy⟩ := ih h hST
      rw [getLast?_cons_of_ne_nil (collapseST_ne_nil (List.cons_ne_nil d t))]
      exact ⟨y, hy, hSTy⟩
  | case3 c rest h1 h2 ih =>
    intro x h hST
    rw [collapseST_cons_run h1 h2]
    by_cases hrest' : rest.dropWhile isST = []
    · rw [hrest', collapseST_nil]
      exact ⟨' ', by simp, by decide⟩
    · have hrne : rest ≠ [] := by
        intro hnil
        rw [hnil] at h2
        simp at h2
      have hx' : (rest.dropWhile isST).getLast? = some x := by
        rw [getLast?_dropWhile hrest']
        rw [getLast?_cons_of_ne_nil hrne] at h
        exact h
      obtain ⟨y, hy, hSTy⟩ := ih hx' hST
      rw [getLast?_cons_of_ne_nil (collapseST_ne_nil hrest')]
      exact ⟨y, hy, hSTy⟩
  | case4 c rest h1 ih =>
    intro x h hST
    rw [collapseST_cons_notST h1]
    cases rest with
    | nil =>
      simp only [List.getLast?_singleton, Option.some.injEq] at h
      exact absurd (by rw [h]; exact hST) h1
    | cons d t =>
      rw [List.getLast?_cons_cons] at h
      obtain ⟨y, hy, hSTy⟩ := ih h hST
      rw [getLast?_cons_of_ne_nil (collapseST_ne_nil (List.cons_ne_nil d t))]
      exact ⟨y, hy, hSTy⟩

/-- `collapseNL` preserves a non-newline final character. -/
theorem collapseNL_last_ne :
    ∀ {l : List Char} {x : Char}, l.getLast? = some x → x ≠ '\n' →
      (collapseNL l).getLast? = some x := by
  intro l
  induction l using collapseNL.induct with
  | case1 => intro x h _; simp at h
  | case2 rest ih =>
    intro x h hx
    have hrne : rest ≠ [] := by
      intro hnil
      subst hnil
      simp only [List.getLast?_singleton, Option.some.injEq] at h
      exact hx h.symm
    rw [getLast?_cons_of_ne_nil hrne] at h
    have hrest' : rest.dropWhile (fun y => decide (y = '\n')) ≠ [] := by
      intro hnil
      have hall : rest.takeWhile (fun y => decide (y = '\n')) = rest := by
        have := List.takeWhile_append_dropWhile
          (fun y => decide (y = '\n')) rest
        rw [hnil, List.append_nil] at this
        exact this
      have hxm : x ∈ rest := List.mem_of_getLast?_eq_some h
      rw [← hall] at hxm
      have := List.mem_takeWhile_imp hxm
      exact hx (by simpa using this)
    rw [collapseNL_cons_nl]
    rw [List.getLast?_append_of_ne_nil _ (collapseNL_ne_nil hrest')]
    apply ih
    · rw [getLast?_dropWhile hrest']
      exact h
    · exact hx
  | case3 c rest h1 ih =>
    intro x h hx
    rw [collapseNL_cons_ne h1]
    cases rest with
    | nil =>
      rw [collapseNL_nil]
      simp only [List.getLast?_singleton, Option.some.injEq] at h
      simp [h]
    | cons d t =>
      rw [List.getLast?_cons_cons] at h
      rw [getLast?_cons_of_ne_nil (collapseNL_ne_nil (List.cons_ne_nil d t))]
      exact ih h hx

/-- `collapseST` keeps a space at the head. -/
theorem collapseST_head_space (y : List Char) :
    (collapseST (' ' :: y)).head? = some ' ' := by
  by_cases h2 : (y.takeWhile isST).length = 0
  · rw [collapseST_cons_run0 (by decide) h2]
    rfl
  · rw [collapseST_cons_run (by decide) h2]
    rfl

/-- Unfolding `techScan` at a start character. -/
theorem techScan_cons_start {c : Char} {rest : List Char}
    (h : isTechStart c = true) :
    techScan (c :: rest) =
      (c :: rest.takeWhile isTechCont) :: techScan (rest.dropWhile isTechCont) := by
  simp [techScan, h]

/-- Unfolding `techScan` at a non-start character. -/
theorem techScan_cons_nostart {c : Char} {rest : List Char}
    (h : ¬ isTechStart c = true) :
    techScan (c :: rest) = techScan rest := by
  simp [techScan, h]

/-- A maximal continuation run opened by a start character and delimited on
both sides is reported by the scanner.  The left context must not end in a
continuation character and the right context must not begin with one. -/
theorem techScan_mem_delimited :
    ∀ (u : List Char) {c0 : Char} {mm v : List Char},
      (u = [] ∨ ∃ x, u.getLast? = some x ∧ isTechCont x = false) →
      isTechStart c0 = true →
      (∀ c ∈ mm, isTechCont c = true) →
      (∀ x, v.head? = some x → isTechCont x = false) →
      (c0 :: mm) ∈ techScan (u ++ (c0 :: mm) ++ v)
  | [], c0, mm, v, _, hstart, hm, hv => by
    rw [List.nil_append, List.cons_append, techScan_cons_start hstart]
    have htw : (mm ++ v).takeWhile isTechCont = mm := by
      rw [takeWhile_append_of hv mm, takeWhile_eq_self_of hm]
    rw [htw]
    exact List.mem_cons_self _ _
  | c :: uu, c0, mm, v, hu, hstart, hm, hv => by
    have hulast : ∃ x, (c :: uu).getLast? = some x ∧ isTechCont x = false := by
      rcases hu with h | h
      · exact absurd h (List.cons_ne_nil c uu)
      · exact h
    by_cases hc : isTechStart c = true
    · have huune : uu ≠ [] := by
        intro hnil
        subst hnil
        obtain ⟨x, hx, hcont⟩ := hulast
        simp only [List.getLast?_singleton, Option.some.injEq] at hx
        rw [← hx] at hcont
        rw [isTechCont_of_start hc] at hcont
        exact Bool.noConfusion hcont
      obtain ⟨x, hx, hcont⟩ := hulast
      rw [getLast?_cons_of_ne_nil huune] at hx
      have hwit : ∃ y ∈ uu, isTechCont y = false :=
        ⟨x, List.mem_of_getLast?_eq_some hx, hcont⟩
      have hbound : (uu.dropWhile isTechCont) = [] ∨
          ∃ y, (uu.dropWhile isTechCont).getLast? = some y ∧
            isTechCont y = false := by
        right
        refine ⟨x, ?_, hcont⟩
        rw [getLast?_dropWhile (dropWhile_ne_nil_of hwit)]
        exact hx
      have hmem := techScan_mem_delimited (uu.dropWhile isTechCont)
        hbound hstart hm hv
      simp only [List.append_assoc, List.cons_append] at hmem ⊢
      rw [techScan_cons_start hc]
      rw [dropWhile_append_inner hwit]
      exact List.mem_cons_of_mem _ hmem
    · have hbound : uu = [] ∨
          ∃ y, uu.getLast? = some y ∧ isTechCont y = false := by
        cases huu : uu with
        | nil => exact Or.inl rfl
        | cons d t =>
          right
          obtain ⟨x, hx, hcont⟩ := hulast
          rw [huu, getLast?_cons_of_ne_nil (List.cons_ne_nil d t)] at hx
          exact ⟨x, hx, hcont⟩
      have hmem := techScan_mem_delimited uu hbound hstart hm hv
      simp only [List.append_assoc, List.cons_append] at hmem ⊢
      rw [techScan_cons_nostart hc]
      exact hmem
termination_by u => u.length
decreasing_by
  · have := (List.dropWhile_sublist (l := uu) isTechCont).length_le
    simp only [List.length_cons]
    omega
  · simp only [List.length_cons]
    omega

/-- The first four `clean_text` stages distribute over appends. -/
theorem stage4_append (a b : List Char) :
    ((((a ++ b).map crToNl).flatMap bulletSub).map Char.toLower).map keepAllowed =
      (((a.map crToNl).flatMap bulletSub).map Char.toLower).map keepAllowed ++
      (((b.map crToNl).flatMap bulletSub).map Char.toLower).map keepAllowed := by
  simp [List.map_append, List.flatMap_append]

/-- The first four `clean_text` stages lowercase a technical token and
change nothing else about it. -/
theorem stage4_token {m : List Char}
    (hbul : ∀ c ∈ m, isBullet c = false)
    (hcr : ∀ c ∈ m, c ≠ '\r')
    (hallow : ∀ c ∈ m.map Char.toLower, isAllowedChar c = true) :
    (((m.map crToNl).flatMap bulletSub).map Char.toLower).map keepAllowed =
      m.map Char.toLower := by
  have hm1 : m.map crToNl = m :=
    map_eq_self_of (fun c hc => by unfold crToNl; rw [if_neg (hcr c hc)])
  have hm2 : m.flatMap bulletSub = m :=
    flatMap_eq_self_of (fun c hc => by
      unfold bulletSub
      rw [if_neg (by rw [hbul c hc]; exact Bool.false_ne_true)])
  have hm4 : (m.map Char.toLower).map keepAllowed = m.map Char.toLower :=
    map_eq_self_of (fun c hc => by unfold keepAllowed; rw [if_pos (hallow c hc)])
  rw [hm1, hm2, hm4]

/-- The first four `clean_text` stages leave a single space alone. -/
theorem stage4_space :
    (((([' '] : List Char).map crToNl).flatMap bulletSub).map
      Char.toLower).map keepAllowed = [' '] := rfl

/-- A space or tab is not a continuation character. -/
theorem not_cont_of_ST {y : Char} (h : isST y = true) :
    isTechCont y = false := by
  unfold isST at h
  rw [Bool.or_eq_true] at h
  rcases h with h1 | h1
  · rw [of_decide_eq_true h1]; decide
  · rw [of_decide_eq_true h1]; decide

/-- A space or tab is not a newline. -/
theorem ne_nl_of_ST {y : Char} (h : isST y = true) : y ≠ '\n' := by
  unfold isST at h
  rw [Bool.or_eq_true] at h
  rcases h with h1 | h1
  · rw [of_decide_eq_true h1]; decide
  · rw [of_decide_eq_true h1]; decide

/-- Cleaning a text with a space-delimited technical token yields the
lowercased token, still delimited by non-continuation characters. -/
theorem cleanChars_token_split (A B mraw : List Char)
    (hbul : ∀ c ∈ mraw, isBullet c = false)
    (hcr : ∀ c ∈ mraw, c ≠ '\r')
    (hallow : ∀ c ∈ mraw.map Char.toLower, isAllowedChar c = true)
    (hcont : ∀ c ∈ mraw.map Char.toLower, isTechCont c = true)
    (hne : mraw ≠ []) :
    ∃ u2 v2, cleanChars (A ++ [' '] ++ mraw ++ [' '] ++ B) =
        u2 ++ mraw.map Char.toLower ++ v2 ∧
      (∀ x, u2.getLast? = some x → isTechCont x = false) ∧
      (∀ x, v2.head? = some x → isTechCont x = false) := by
  set mcln := mraw.map Char.toLower with hmcln
  have hmne : mcln ≠ [] := by
    intro hnil
    rw [hmcln] at hnil
    exact hne (List.map_eq_nil_iff.mp hnil)
  obtain ⟨c0, m', hm0⟩ : ∃ c0 m', mcln = c0 :: m' := by
    cases hmc : mcln with
    | nil => exact absurd hmc hmne
    | cons c0 m' => exact ⟨c0, m', rfl⟩
  have hcontST : ∀ c ∈ mcln, isST c = false :=
    fun c hc => not_isST_of_cont (hcont c hc)
  have hcontNL : ∀ c ∈ mcln, c ≠ '\n' :=
    fun c hc => ne_nl_of_cont (hcont c hc)
  set A4 := (((A.map crToNl).flatMap bulletSub).map Char.toLower).map keepAllowed
    with hA4
  set B4 := (((B.map crToNl).flatMap bulletSub).map Char.toLower).map keepAllowed
    with hB4
  have hstage :
      ((((A ++ [' '] ++ mraw ++ [' '] ++ B).map crToNl).flatMap
        bulletSub).map Char.toLower).map keepAllowed =
      (A4 ++ [' ']) ++ (mcln ++ ([' '] ++ B4)) := by
    rw [stage4_append, stage4_append, stage4_append, stage4_append]
    rw [stage4_space, stage4_token hbul hcr hallow]
    rw [← hA4, ← hB4, ← hmcln]
    simp only [List.append_assoc, List.singleton_append, List.cons_append]
  -- collapseST stage
  have hbST : ∀ x, (mcln ++ ([' '] ++ B4)).head? = some x → isST x = false := by
    intro x hx
    rw [hm0, List.cons_append, List.head?_cons] at hx
    cases hx
    exact hcontST c0 (by rw [hm0]; exact List.mem_cons_self _ _)
  have hST1 : collapseST ((A4 ++ [' ']) ++ (mcln ++ ([' '] ++ B4))) =
      collapseST (A4 ++ [' ']) ++ (mcln ++ collapseST ([' '] ++ B4)) := by
    rw [collapseST_append hbST, collapseST_pass hcontST]
  set L1 := collapseST (A4 ++ [' ']) with hL1
  set Y2 := collapseST ([' '] ++ B4) with hY2
  obtain ⟨y, hyL, hyST⟩ : ∃ y, L1.getLast? = some y ∧ isST y = true := by
    apply collapseST_last_ST (x := ' ')
    · rw [List.getLast?_append]
      rfl
    · decide
  have hY2head : Y2.head? = some ' ' := by
    rw [hY2, List.singleton_append]
    exact collapseST_head_space B4
  -- collapseNL stage
  have hbNL : ∀ x, (mcln ++ Y2).head? = some x → x ≠ '\n' := by
    intro x hx
    rw [hm0, List.cons_append, List.head?_cons] at hx
    cases hx
    exact hcontNL c0 (by rw [hm0]; exact List.mem_cons_self _ _)
  have hNL1 : collapseNL (L1 ++ (mcln ++ Y2)) =
      collapseNL L1 ++ (mcln ++ collapseNL Y2) := by
    rw [collapseNL_append hbNL, collapseNL_pass hcontNL]
  set L2 := collapseNL L1 with hL2
  set Z2 := collapseNL Y2 with hZ2
  have hL2last : L2.getLast? = some y :=
    collapseNL_last_ne hyL (ne_nl_of_ST hyST)
  have hZ2head : Z2.head? = some ' ' := by
    rw [hZ2, collapseNL_head?]
    exact hY2head
  -- strip stage
  have hmrevne : mcln.reverse ≠ [] := by
    intro hnil
    rw [List.reverse_eq_nil_iff] at hnil
    exact hmne hnil
  obtain ⟨r0, r', hr0⟩ : ∃ r0 r', mcln.reverse = r0 :: r' := by
    cases hmr : mcln.reverse with
    | nil => exact absurd hmr hmrevne
    | cons r0 r' => exact ⟨r0, r', rfl⟩
  have hr0cont : isTechCont r0 = true := by
    apply hcont
    rw [← List.mem_reverse, hr0]
    exact List.mem_cons_self _ _
  have hrstrip : rstripWs (L2 ++ (mcln ++ Z2)) =
      L2 ++ (mcln ++ rstripWs Z2) := by
    unfold rstripWs
    rw [List.reverse_append, List.reverse_append]
    rw [List.append_assoc]
    rw [dropWhile_append_of (b := mcln.reverse ++ L2.reverse) (fun x hx => by
      rw [hr0] at hx
      rw [List.cons_append, List.head?_cons] at hx
      cases hx
      exact not_pySpace_of_cont hr0cont)]
    rw [← List.append_assoc]
    simp [List.reverse_append]
  have hlstrip : lstripWs (L2 ++ (mcln ++ rstripWs Z2)) =
      lstripWs L2 ++ (mcln ++ rstripWs Z2) := by
    unfold lstripWs
    rw [dropWhile_append_of (fun x hx => by
      rw [hm0] at hx
      rw [List.cons_append, List.head?_cons] at hx
      cases hx
      exact not_pySpace_of_cont (hcont c0 (by
        rw [hm0]; exact List.mem_cons_self _ _)))]
  refine ⟨lstripWs L2, rstripWs Z2, ?_, ?_, ?_⟩
  · unfold cleanChars
    rw [hstage, hST1, hNL1]
    unfold stripWs
    rw [hrstrip, hlstrip]
    simp only [List.append_assoc]
  · intro x hx
    have hne2 : lstripWs L2 ≠ [] := by
      intro hnil
      rw [hnil] at hx
      simp at hx
    unfold lstripWs at hx hne2
    rw [getLast?_dropWhile hne2, hL2last] at hx
    cases hx
    exact not_cont_of_ST hyST
  · intro x hx
    have hne2 : rstripWs Z2 ≠ [] := by
      intro hnil
      rw [hnil] at hx
      simp at hx
    unfold rstripWs at hx hne2
    have hne3 : Z2.reverse.dropWhile isPySpace ≠ [] := by
      intro hnil
      rw [hnil] at hne2
      simp at hne2
    rw [List.head?_reverse, getLast?_dropWhile hne3, List.getLast?_reverse,
      hZ2head] at hx
    cases hx
    decide

/-- A scanner match that is already lowercase, strip-invariant and long
enough lands in `_tech_tokens`. -/
theorem tech_tokens_mem {text : String} {m : List Char}
    (hscan : m ∈ techScan text.data)
    (hlow : m.map Char.toLower = m)
    (hstrip : stripEnds techStripChars m = m)
    (hlen : 1 < m.length) :
    (⟨m⟩ : String) ∈ tech_tokens text := by
  unfold tech_tokens
  rw [List.mem_toFinset]
  apply List.mem_filter.mpr
  constructor
  · apply List.mem_map.mpr
    exact ⟨m, hscan, by rw [hlow, hstrip]⟩
  · simp only [decide_eq_true_eq]
    exact hlen

/-- Technical tokens survive into `extract_keywords` unless they are noise
words. -/
theorem extract_keywords_of_tech
    {nlp : String → List SpacyTok × List (List SpacyTok)} {text t : String}
    (ht : t ∈ tech_tokens text) (hn : t ∉ noiseWords) :
    t ∈ extract_keywords nlp text := by
  unfold extract_keywords
  rw [Finset.mem_filter]
  exact ⟨Finset.mem_union_right _ ht, hn⟩

/-- A pointwise non-continuation bound gives the disjunctive boundary
hypothesis of the scanner lemma. -/
theorem boundary_of_forall {u : List Char}
    (h : ∀ x, u.getLast? = some x → isTechCont x = false) :
    u = [] ∨ ∃ x, u.getLast? = some x ∧ isTechCont x = false := by
  cases u with
  | nil => exact Or.inl rfl
  | cons a t =>
    right
    cases hx : (a :: t).getLast? with
    | none =>
      exfalso
      have := List.getLast?_isSome (l := a :: t)
      rw [hx] at this
      simp at this
    | some x => exact ⟨x, rfl, h x hx⟩

/-- C9: technical tokens survive normalization and extraction case-folded:
whenever the raw text contains "C++" and "Node.js" as space-delimited
tokens, `extract_keywords` applied to the cleaned text contains "c++" and
"node.js", with the separators + and . preserved. -/
theorem claim_C9 (nlp : String → List SpacyTok × List (List SpacyTok))
    (u w v : List Char) :
    "c++" ∈ extract_keywords nlp
      (clean_text ⟨u ++ " C++ ".data ++ w ++ " Node.js ".data ++ v⟩) ∧
    "node.js" ∈ extract_keywords nlp
      (clean_text ⟨u ++ " C++ ".data ++ w ++ " Node.js ".data ++ v⟩) := by
  set L : List Char := u ++ " C++ ".data ++ w ++ " Node.js ".data ++ v with hL
  have hdata1 : " C++ ".data = [' '] ++ ['C', '+', '+'] ++ [' '] := rfl
  have hdata2 :
      " Node.js ".data = [' '] ++ ['N', 'o', 'd', 'e', '.', 'j', 's'] ++ [' '] := rfl
  have hd1 : L = u ++ [' '] ++ ['C', '+', '+'] ++ [' '] ++
      (w ++ " Node.js ".data ++ v) := by
    rw [hL, hdata1]
    simp only [List.append_assoc]
  have hd2 : L = (u ++ " C++ ".data ++ w) ++ [' '] ++
      ['N', 'o', 'd', 'e', '.', 'j', 's'] ++ [' '] ++ v := by
    rw [hL, hdata2]
    simp only [List.append_assoc]
  obtain ⟨u2, v2, hEq, hu2, hv2⟩ :=
    cleanChars_token_split u (w ++ " Node.js ".data ++ v) ['C', '+', '+']
      (by decide) (by decide) (by decide) (by decide) (by decide)
  obtain ⟨u3, v3, hEq2, hu3, hv3⟩ :=
    cleanChars_token_split (u ++ " C++ ".data ++ w) v
      ['N', 'o', 'd', 'e', '.', 'j', 's']
      (by decide) (by decide) (by decide) (by decide) (by decide)
  have hmap1 : (['C', '+', '+'] : List Char).map Char.toLower = ['c', '+', '+'] := by
    decide
  have hmap2 : (['N', 'o', 'd', 'e', '.', 'j', 's'] : List Char).map Char.toLower =
      ['n', 'o', 'd', 'e', '.', 'j', 's'] := by decide
  rw [hmap1] at hEq
  rw [hmap2] at hEq2
  have hscan1 : ['c', '+', '+'] ∈ techScan (cleanChars L) := by
    rw [hd1, hEq]
    exact techScan_mem_delimited u2 (boundary_of_forall hu2) (by decide)
      (by decide) hv2
  have hscan2 : ['n', 'o', 'd', 'e', '.', 'j', 's'] ∈ techScan (cleanChars L) := by
    rw [hd2, hEq2]
    exact techScan_mem_delimited u3 (boundary_of_forall hu3) (by decide)
      (by decide) hv3
  have htok1 : ("c++" : String) ∈ tech_tokens (clean_text ⟨L⟩) :=
    tech_tokens_mem hscan1 (by decide) (by decide) (by decide)
  have htok2 : ("node.js" : String) ∈ tech_tokens (clean_text ⟨L⟩) :=
    tech_tokens_mem hscan2 (by decide) (by decide) (by decide)
  exact ⟨extract_keywords_of_tech htok1 (by decide),
    extract_keywords_of_tech htok2 (by decide)⟩

/-- Witness instantiating the universal part of the C2 theorem at a
concrete nonempty job-description set. -/
theorem claim_C2_witness :
    (calculate_match cfgNoFuzz {"a"} {"b"}).score =
      round2 (100 * ((0.7 : ℚ) *
          (((calculate_match cfgNoFuzz {"a"} {"b"}).common.card : ℚ) /
            ((({"b"} : Finset String).card : ℕ) : ℚ)) +
        (0.3 : ℚ) * min 1
          (((calculate_match cfgNoFuzz {"a"} {"b"}).fuzzy_common.card : ℚ) /
            ((({"b"} : Finset String).card : ℕ) : ℚ)))) :=
  claim_C2.1 cfgNoFuzz {"a"} {"b"} ⟨"b", by decide⟩

/-- `⌊0.4 m⌋ = 2m/5` in natural division. -/
theorem floor_two_fifths (m : ℕ) :
    Nat.floor ((0.4 : ℚ) * (m : ℚ)) = 2 * m / 5 := by
  have h : (0.4 : ℚ) * (m : ℚ) = ((2 * m : ℕ) : ℚ) / ((5 : ℕ) : ℚ) := by
    push_cast
    norm_num
    ring
  rw [h, Nat.floor_div_nat, Nat.floor_natCast]

/-- C6: header/footer de-duplication drops exactly the lines whose trimmed
form's frequency (among trimmed non-empty lines) reaches
`max(2, ⌊0.4·maxfreq⌋)`; consequently in a 10-page document a line on 9 of
10 pages is dropped, a line on 1 of 10 pages is kept, and a document with
no repeated lines keeps all lines. -/
theorem claim_C6 :
    (∀ lines : List String,
      de_duplicate_headers_footers lines =
        lines.filter (fun ln =>
          ((lines.map pyStrip).filter (fun k => k ≠ "")).count (pyStrip ln) <
            max 2 (Nat.floor ((0.4 : ℚ) *
              (((((lines.map pyStrip).filter (fun k => k ≠ "")).map
                (fun k => ((lines.map pyStrip).filter (fun k => k ≠ "")).count k)).foldr
                  max 0 : ℕ) : ℚ))))) ∧
    ("h" ∉ splitlines (extract_text_from_pdf
        ["h\np0", "h\np1", "h\np2", "h\np3", "h\np4",
         "h\np5", "h\np6", "h\np7", "h\np8", "p9"]) ∧
      "p0" ∈ splitlines (extract_text_from_pdf
        ["h\np0", "h\np1", "h\np2", "h\np3", "h\np4",
         "h\np5", "h\np6", "h\np7", "h\np8", "p9"])) ∧
    (∀ lines : List String,
      ((lines.map pyStrip).filter (fun k => k ≠ "")).Nodup →
        de_duplicate_headers_footers lines = lines) := by
  refine ⟨?_, ⟨by decide, by decide⟩, ?_⟩
  · intro lines
    simp only [de_duplicate_headers_footers, floor_two_fifths]
    by_cases hk : (lines.map pyStrip).filter (fun k => k ≠ "") = []
    · rw [if_pos hk, hk]
      symm
      apply List.filter_eq_self.mpr
      intro a _
      simp
    · rw [if_neg hk]
  · intro lines hnd
    simp only [de_duplicate_headers_footers]
    by_cases hk : (lines.map pyStrip).filter (fun k => k ≠ "") = []
    · rw [if_pos hk]
    · rw [if_neg hk]
      apply List.filter_eq_self.mpr
      intro a _
      have hcount := List.nodup_iff_count_le_one.mp hnd (pyStrip a)
      simp only [decide_eq_true_eq]
      calc ((lines.map pyStrip).filter (fun k => k ≠ "")).count (pyStrip a) ≤ 1 :=
            hcount
        _ < 2 := by norm_num
        _ ≤ max 2 _ := le_max_left _ _

/-- C6, witnessed: a two-line document with no repeats is kept whole. -/
theorem claim_C6_witness :
    de_duplicate_headers_footers ["x", "y"] = ["x", "y"] :=
  claim_C6.2.2 ["x", "y"] (by decide)
